import Mathlib

/-!
Verification of the migration sequencing and locking engine of the `up`
package (a database schema versioning tool).

The Go source is shallowly embedded: machine integers (`int64` versions)
become `Int`, fallible calls return success flags or `Option`, the
`context.Context` and `*sql.DB` arguments are opaque (`Db` is a type
parameter and migration actions are partial functions on it), and the
store interface becomes a record of state transformers.  Each `Run` /
`Revert` invocation additionally returns the ordered list of store and
migration calls it made, so that claims about which calls happen (and in
which order) can be stated.

Logging (`log` / `debug`, the `LogW` / `DebugW` and `LogFunc` /
`DebugFunc` sinks) only formats strings and is dropped from the model.
-/

namespace Up

/-- Sentinel target for `Run`: apply all pending migrations (Go constant
`RunTargetLatest = -1`). -/
def RunTargetLatest : Int := -1

/-- Sentinel target for `Revert`: revert every migration (Go constant
`RevertTargetInitial = 0`). -/
def RevertTargetInitial : Int := 0

/-- A migration: a version, a name, and optional forward and reverse
actions on the opaque database state (`migration.go`).  An action returns
`none` on failure. -/
structure Migration (Db : Type) where
  Version : Int
  Name : String
  RunFunc : Option (Db → Option Db)
  RevertFunc : Option (Db → Option Db)

/-- `Migration.Run`: invoking a migration with no run function fails with
an error; otherwise the action's own result is returned.  Both are folded
into `Option` here, since the calling engine wraps either error the same
way. -/
def Migration.run {Db : Type} (m : Migration Db) (db : Db) : Option Db :=
  match m.RunFunc with
  | none => none
  | some f => f db

/-- `Migration.Revert`: as `Migration.run`, for the reverse action. -/
def Migration.revert {Db : Type} (m : Migration Db) (db : Db) : Option Db :=
  match m.RevertFunc with
  | none => none
  | some f => f db

/-- Result of `Store.Version`: a version, the distinguished
`ErrInitialVersion` condition, or any other error. -/
inductive VersionRes
  | ok (v : Int)
  | initial
  | fail
deriving DecidableEq, Repr

/-- The `Store` interface (`store.go`), as a record of state
transformers over an abstract store state `σ`.  Every operation may
mutate the state and report success (`true`) or failure (`false`);
`version` reports a `VersionRes`.  `DB()` is not modelled: the database
handle is the `db` component of the `World` below. -/
structure StoreOps (σ : Type) where
  init : σ → σ × Bool
  lock : σ → σ × Bool
  release : σ → σ × Bool
  version : σ → σ × VersionRes
  insert : Int → σ → σ × Bool
  remove : Int → σ → σ × Bool

/-- The full mutable state an invocation acts on: the version store's
state and the opaque database state the migration actions mutate. -/
structure World (σ Db : Type) where
  store : σ
  db : Db
deriving DecidableEq

/-- One observable call made during an invocation: a store call, or the
invocation of a migration's forward / reverse action (`Migration.Run` /
`Migration.Revert`). -/
inductive Event
  | init
  | lock
  | release
  | version
  | insert (v : Int)
  | remove (v : Int)
  | applyCall (v : Int)
  | revertCall (v : Int)
deriving DecidableEq, Repr

/-- The errors `Run` and `Revert` can return, abstracted from the Go
error messages.  `joined e` is `errors.Join e releaseErr`: a primary
error combined with a lock-release failure. -/
inductive UpError
  | invalidSources
  | initFailed
  | lockFailed
  | versionFailed
  | missingTarget (v : Int)
  | missingRemote (v : Int)
  | applyFailed (v : Int)
  | insertFailed (v : Int)
  | revertFailed (v : Int)
  | removeFailed (v : Int)
  | releaseFailed
  | joined (e : UpError)
deriving DecidableEq, Repr

/-- Outcome of an invocation: final world, count of completed steps
(the `n` returned by the `part_004` implementation), error, and the
ordered call trace. -/
structure RunOut (σ Db : Type) where
  world : World σ Db
  n : Nat
  err : Option UpError
  events : List Event
deriving DecidableEq

/-- Outcome of `migrator.go`'s `Run`, which returns no count. -/
structure GoOut (σ Db : Type) where
  world : World σ Db
  err : Option UpError
  events : List Event
deriving DecidableEq

/-- The migration engine: the version store operations, the migration
sources, and the hold-lock-on-failure switch (`Migrator` struct; the
log sinks are dropped). -/
structure Migrator (σ Db : Type) where
  Store : StoreOps σ
  Sources : List (Migration Db)
  HoldLockOnFailure : Bool

/-- Loop body of `Migrator.check`: `prev` is the previously seen version
(initially `0`), `seen` the set of versions seen so far (the Go
`map[int64]bool`). -/
def checkAux {Db : Type} : Int → List Int → List (Migration Db) → Bool
  | _, _, [] => true
  | prev, seen, mg :: rest =>
    if mg.Version ≤ 0 then false
    else if mg.Version < prev then false
    else if mg.Version ∈ seen then false
    else checkAux mg.Version (mg.Version :: seen) rest

/-- `Migrator.check`: validates the source list (positive versions, no
version smaller than its predecessor, no duplicates) before any store
access. -/
def Migrator.check {σ Db : Type} (m : Migrator σ Db) : Bool :=
  checkAux 0 [] m.Sources

/-- The deferred lock release both entry points install after acquiring
the lock: when `shouldRelease` is set, `Store.Release` runs and a release
failure is joined with (never replaces) the primary error; otherwise the
lock is deliberately left held. -/
def finishRel {σ Db : Type} (ops : StoreOps σ) (shouldRelease : Bool)
    (w : World σ Db) (n : Nat) (err : Option UpError) (evs : List Event) :
    RunOut σ Db :=
  if shouldRelease then
    let r := ops.release w.store
    { world := { w with store := r.1 }
      n := n
      err :=
        if r.2 then err
        else
          match err with
          | none => some UpError.releaseFailed
          | some e => some (UpError.joined e)
      events := evs ++ [Event.release] }
  else
    { world := w, n := n, err := err, events := evs }

/-- The apply walk of the `part_004` `Migrator.Run` (lines 110..123):
for each queued migration, invoke its run function, then record it with
`Store.Insert`; either failure stops immediately (the lock is then held
exactly when `HoldLockOnFailure` is set); completing the walk restores
`shouldRelease`. -/
def Migrator.runWalk {σ Db : Type} (m : Migrator σ Db) :
    World σ Db → Nat → List Event → List (Migration Db) → RunOut σ Db
  | w, n, evs, [] => finishRel m.Store true w n none evs
  | w, n, evs, mg :: rest =>
    let evs1 := evs ++ [Event.applyCall mg.Version]
    match mg.run w.db with
    | none =>
      finishRel m.Store (!m.HoldLockOnFailure) w n
        (some (UpError.applyFailed mg.Version)) evs1
    | some db1 =>
      let r := m.Store.insert mg.Version w.store
      let w1 : World σ Db := { store := r.1, db := db1 }
      let evs2 := evs1 ++ [Event.insert mg.Version]
      if r.2 then
        m.runWalk w1 (n + 1) evs2 rest
      else
        finishRel m.Store (!m.HoldLockOnFailure) w1 n
          (some (UpError.insertFailed mg.Version)) evs2

/-- Selection and walk shared by the tail of `Migrator.run` once the
current (remote) version is known. -/
def Migrator.runFrom {σ Db : Type} (m : Migrator σ Db) (w3 : World σ Db)
    (remote tgt : Int) (evs : List Event) : RunOut σ Db :=
  let toApply := m.Sources.filter fun mg =>
    decide (remote < mg.Version ∧ (tgt = RunTargetLatest ∨ mg.Version ≤ tgt))
  if toApply.isEmpty then finishRel m.Store true w3 0 none evs
  else m.runWalk w3 0 evs toApply

/-- `Migrator.Run` as implemented in `part_004`: validate, init, lock,
read the current version (treating `ErrInitialVersion` as version `0`),
queue every source migration with version above current and at most the
target (sentinel `-1` meaning no upper bound), return immediately when
nothing is queued, otherwise walk the queue. -/
def Migrator.run {σ Db : Type} (m : Migrator σ Db) (w : World σ Db)
    (tgt : Int) : RunOut σ Db :=
  if !m.check then
    { world := w, n := 0, err := some UpError.invalidSources, events := [] }
  else
    let ri := m.Store.init w.store
    let w1 : World σ Db := { w with store := ri.1 }
    if !ri.2 then
      { world := w1, n := 0, err := some UpError.initFailed,
        events := [Event.init] }
    else
      let rl := m.Store.lock w1.store
      let w2 : World σ Db := { w1 with store := rl.1 }
      if !rl.2 then
        { world := w2, n := 0, err := some UpError.lockFailed,
          events := [Event.init, Event.lock] }
      else
        let rv := m.Store.version w2.store
        let w3 : World σ Db := { w2 with store := rv.1 }
        let evs := [Event.init, Event.lock, Event.version]
        match rv.2 with
        | VersionRes.fail =>
          finishRel m.Store true w3 0 (some UpError.versionFailed) evs
        | VersionRes.initial => m.runFrom w3 0 tgt evs
        | VersionRes.ok v => m.runFrom w3 v tgt evs

/-- The deferred lock release of `migrator.go`, identical to `finishRel`
but for the count-less return shape. -/
def finishRelGo {σ Db : Type} (ops : StoreOps σ) (shouldRelease : Bool)
    (w : World σ Db) (err : Option UpError) (evs : List Event) :
    GoOut σ Db :=
  if shouldRelease then
    let r := ops.release w.store
    { world := { w with store := r.1 }
      err :=
        if r.2 then err
        else
          match err with
          | none => some UpError.releaseFailed
          | some e => some (UpError.joined e)
      events := evs ++ [Event.release] }
  else
    { world := w, err := err, events := evs }

/-- The apply walk of `migrator.go`'s `Migrator.Run` (lines 137..155):
it ranges over `m.Sources` again, guarding each migration with
`migration.Version > remoteVersion && migration.Version <= to` — note the
missing `to == RunTargetLatest` disjunct that the selection loop had. -/
def Migrator.runGoWalk {σ Db : Type} (m : Migrator σ Db) (remote tgt : Int) :
    World σ Db → List Event → List (Migration Db) → GoOut σ Db
  | w, evs, [] => finishRelGo m.Store true w none evs
  | w, evs, mg :: rest =>
    if remote < mg.Version ∧ mg.Version ≤ tgt then
      let evs1 := evs ++ [Event.applyCall mg.Version]
      match mg.run w.db with
      | none =>
        finishRelGo m.Store (!m.HoldLockOnFailure) w
          (some (UpError.applyFailed mg.Version)) evs1
      | some db1 =>
        let r := m.Store.insert mg.Version w.store
        let w1 : World σ Db := { store := r.1, db := db1 }
        let evs2 := evs1 ++ [Event.insert mg.Version]
        if r.2 then
          m.runGoWalk remote tgt w1 evs2 rest
        else
          finishRelGo m.Store (!m.HoldLockOnFailure) w1
            (some (UpError.insertFailed mg.Version)) evs2
    else m.runGoWalk remote tgt w evs rest

/-- Selection and walk of `migrator.go`'s `Run` once the current version
is known: the queue `toApply` (computed with the sentinel disjunct) is
used only for the empty check; the walk itself re-traverses `m.Sources`
with the sentinel-less guard. -/
def Migrator.runGoFrom {σ Db : Type} (m : Migrator σ Db) (w3 : World σ Db)
    (remote tgt : Int) (evs : List Event) : GoOut σ Db :=
  let toApply := m.Sources.filter fun mg =>
    decide (remote < mg.Version ∧ (tgt = RunTargetLatest ∨ mg.Version ≤ tgt))
  if toApply.isEmpty then finishRelGo m.Store true w3 none evs
  else m.runGoWalk remote tgt w3 evs m.Sources

/-- `Migrator.Run` as implemented in `src/up/migrator.go` (no count is
returned; the apply walk uses the sentinel-less guard). -/
def Migrator.runGo {σ Db : Type} (m : Migrator σ Db) (w : World σ Db)
    (tgt : Int) : GoOut σ Db :=
  if !m.check then
    { world := w, err := some UpError.invalidSources, events := [] }
  else
    let ri := m.Store.init w.store
    let w1 : World σ Db := { w with store := ri.1 }
    if !ri.2 then
      { world := w1, err := some UpError.initFailed, events := [Event.init] }
    else
      let rl := m.Store.lock w1.store
      let w2 : World σ Db := { w1 with store := rl.1 }
      if !rl.2 then
        { world := w2, err := some UpError.lockFailed,
          events := [Event.init, Event.lock] }
      else
        let rv := m.Store.version w2.store
        let w3 : World σ Db := { w2 with store := rv.1 }
        let evs := [Event.init, Event.lock, Event.version]
        match rv.2 with
        | VersionRes.fail =>
          finishRelGo m.Store true w3 (some UpError.versionFailed) evs
        | VersionRes.initial => m.runGoFrom w3 0 tgt evs
        | VersionRes.ok v => m.runGoFrom w3 v tgt evs

/-- `slices.BinarySearchFunc(sources, t, migrationCmpFunc)`: on a slice
sorted by version it returns the smallest index whose version is at
least `t`, and whether that position holds exactly `t`.  Both call sites
run after `check()` has established sortedness, where this specification
is the binary search's documented result. -/
def binarySearchFunc {Db : Type} (l : List (Migration Db)) (t : Int) :
    Nat × Bool :=
  match l.get? (List.findIdx (fun mg => decide (t ≤ mg.Version)) l) with
  | some mg =>
    (List.findIdx (fun mg => decide (t ≤ mg.Version)) l, decide (mg.Version = t))
  | none => (List.findIdx (fun mg => decide (t ≤ mg.Version)) l, false)

/-- The `idx, ok := BinarySearchFunc(...)` / `migration := m.Sources[idx]`
pair: the source migration found for version `t`, if any. -/
def lookupVersion {Db : Type} (l : List (Migration Db)) (t : Int) :
    Option (Migration Db) :=
  match binarySearchFunc l t with
  | (i, true) => l.get? i
  | (_, false) => none

/-- The descending walk of `Migrator.Revert` (both implementations,
`part_004` lines 188..220 and `migrator.go` lines 241..283): while the
current version exceeds the target, locate its source migration, invoke
its reverse action, remove its record, then re-query the current version;
a mid-loop `ErrInitialVersion` returns success (without restoring
`shouldRelease`, so under `HoldLockOnFailure` the lock stays held there).
The Go `for` loop is given `fuel`; `none` means the fuel ran out, which
corresponds to a non-terminating loop. -/
def Migrator.revertLoop {σ Db : Type} (m : Migrator σ Db) (tgt : Int) :
    Nat → Int → World σ Db → Nat → List Event → Option (RunOut σ Db)
  | 0, _, _, _, _ => none
  | fuel + 1, remote, w, n, evs =>
    if remote ≤ tgt then some (finishRel m.Store true w n none evs)
    else
      match lookupVersion m.Sources remote with
      | none =>
        some (finishRel m.Store (!m.HoldLockOnFailure) w n
          (some (UpError.missingRemote remote)) evs)
      | some mg =>
        let evs1 := evs ++ [Event.revertCall mg.Version]
        match mg.revert w.db with
        | none =>
          some (finishRel m.Store (!m.HoldLockOnFailure) w n
            (some (UpError.revertFailed mg.Version)) evs1)
        | some db1 =>
          let rr := m.Store.remove mg.Version w.store
          let w1 : World σ Db := { store := rr.1, db := db1 }
          let evs2 := evs1 ++ [Event.remove mg.Version]
          if !rr.2 then
            some (finishRel m.Store (!m.HoldLockOnFailure) w1 n
              (some (UpError.removeFailed mg.Version)) evs2)
          else
            let rv := m.Store.version w1.store
            let w2 : World σ Db := { w1 with store := rv.1 }
            let evs3 := evs2 ++ [Event.version]
            match rv.2 with
            | VersionRes.initial =>
              some (finishRel m.Store (!m.HoldLockOnFailure) w2 (n + 1)
                none evs3)
            | VersionRes.fail =>
              some (finishRel m.Store (!m.HoldLockOnFailure) w2 (n + 1)
                (some UpError.versionFailed) evs3)
            | VersionRes.ok v => m.revertLoop tgt fuel v w2 (n + 1) evs3

/-- `Migrator.Revert` (observably identical in both implementations):
validate the sources, require a non-sentinel target to exist in them
(before any store access), init and lock the store, read the current
version (`ErrInitialVersion` at this point is "nothing to revert",
returned while `shouldRelease` is still `true`), then walk downwards. -/
def Migrator.revert {σ Db : Type} (m : Migrator σ Db) (w : World σ Db)
    (tgt : Int) (fuel : Nat) : Option (RunOut σ Db) :=
  if !m.check then
    some { world := w, n := 0, err := some UpError.invalidSources,
           events := [] }
  else if tgt ≠ RevertTargetInitial ∧ (binarySearchFunc m.Sources tgt).2 = false then
    some { world := w, n := 0, err := some (UpError.missingTarget tgt),
           events := [] }
  else
    let ri := m.Store.init w.store
    let w1 : World σ Db := { w with store := ri.1 }
    if !ri.2 then
      some { world := w1, n := 0, err := some UpError.initFailed,
             events := [Event.init] }
    else
      let rl := m.Store.lock w1.store
      let w2 : World σ Db := { w1 with store := rl.1 }
      if !rl.2 then
        some { world := w2, n := 0, err := some UpError.lockFailed,
               events := [Event.init, Event.lock] }
      else
        let rv := m.Store.version w2.store
        let w3 : World σ Db := { w2 with store := rv.1 }
        let evs := [Event.init, Event.lock, Event.version]
        match rv.2 with
        | VersionRes.fail =>
          some (finishRel m.Store true w3 0 (some UpError.versionFailed) evs)
        | VersionRes.initial =>
          some (finishRel m.Store true w3 0 none evs)
        | VersionRes.ok v => m.revertLoop tgt fuel v w3 0 evs

/-- State of the reference SQLite store (`sqlite3store.go`): the rows of
`schema_migrations` (most recently inserted version first) and whether
the `schema_lock` row exists. -/
structure Sqlite3State where
  applied : List Int
  locked : Bool
deriving DecidableEq, Repr

/-- The `Version` query,
`SELECT version_id FROM schema_migrations ORDER BY version_id DESC LIMIT 1`:
the maximum recorded version, or nothing when the table is empty. -/
def maxRow : List Int → Option Int
  | [] => none
  | v :: vs =>
    match maxRow vs with
    | none => some v
    | some m => some (max v m)

/-- The reference store with an optional injected insert fault, mirroring
the test harness in `migrator_test.go` where a `fakeStore` runs the
reference behavior except that `insertFunc` can be overridden to fail for
a chosen version.  `sqlite3StoreFI none` is exactly the reference
`Sqlite3Store` behavior:
`Init` creates tables (no observable state change here); `Lock` inserts
the single lock row, reporting failure when it already exists; `Release`
deletes it; `Version` is the maximum row; `Insert` adds a row, failing on
the `version_id UNIQUE` constraint; `Remove` runs
`DELETE FROM schema_migrations WHERE version_id = ?`, which succeeds even
when no row matches. -/
def sqlite3StoreFI (bad : Option Int) : StoreOps Sqlite3State where
  init s := (s, true)
  lock s := if s.locked then (s, false) else ({ s with locked := true }, true)
  release s := ({ s with locked := false }, true)
  version s :=
    match maxRow s.applied with
    | none => (s, VersionRes.initial)
    | some v => (s, VersionRes.ok v)
  insert v s :=
    if bad = some v then (s, false)
    else if v ∈ s.applied then (s, false)
    else ({ s with applied := v :: s.applied }, true)
  remove v s := ({ s with applied := s.applied.erase v }, true)

/-- The reference `Sqlite3Store` (`sqlite3store.go`), on the state above. -/
def sqlite3Store : StoreOps Sqlite3State where
  init s := (s, true)
  lock s := if s.locked then (s, false) else ({ s with locked := true }, true)
  release s := ({ s with locked := false }, true)
  version s :=
    match maxRow s.applied with
    | none => (s, VersionRes.initial)
    | some v => (s, VersionRes.ok v)
  insert v s :=
    if v ∈ s.applied then (s, false)
    else ({ s with applied := v :: s.applied }, true)
  remove v s := ({ s with applied := s.applied.erase v }, true)

theorem sqlite3Store_eq_FI_none : sqlite3Store = sqlite3StoreFI none := by
  unfold sqlite3Store sqlite3StoreFI
  simp

/-- The versions of a source list. -/
def versionsOf {Db : Type} (l : List (Migration Db)) : List Int :=
  l.map Migration.Version

/-- A valid source list: strictly increasing, strictly positive
versions. -/
def ValidSources {Db : Type} (l : List (Migration Db)) : Prop :=
  List.Chain' (· < ·) (versionsOf l) ∧ ∀ mg ∈ l, 0 < mg.Version

/-- A migration whose forward action always succeeds. -/
def TotalRun {Db : Type} (mg : Migration Db) : Prop :=
  ∀ d, (mg.run d).isSome

/-- A migration whose reverse action always succeeds. -/
def TotalRevert {Db : Type} (mg : Migration Db) : Prop :=
  ∀ d, (mg.revert d).isSome

/-- A migration whose actions succeed without touching the database
(the `noopMigration` helper of `migrator_test.go`). -/
def noopMigration (v : Int) : Migration Unit :=
  { Version := v, Name := "m", RunFunc := some fun d => some d,
    RevertFunc := some fun d => some d }

/-- A migration whose forward action always fails (the `errorMigration`
helper of `migrator_test.go`). -/
def errorMigration (v : Int) : Migration Unit :=
  { Version := v, Name := "m", RunFunc := some fun _ => none,
    RevertFunc := some fun _ => none }

section CheckLemmas

variable {Db : Type}

@[simp] theorem versionsOf_nil : versionsOf ([] : List (Migration Db)) = [] := rfl

@[simp] theorem versionsOf_cons (mg : Migration Db) (l : List (Migration Db)) :
    versionsOf (mg :: l) = mg.Version :: versionsOf l := rfl

theorem checkAux_iff (l : List (Migration Db)) :
    ∀ (p : Int) (seen : List Int), (∀ s ∈ seen, s ≤ p) → (p ≤ 0 ∨ p ∈ seen) →
    (checkAux p seen l = true ↔
      List.Chain' (· < ·) (p :: versionsOf l) ∧ ∀ mg ∈ l, 0 < mg.Version) := by
  induction l with
  | nil =>
    intro p seen _ _
    simp [checkAux]
  | cons mg rest ih =>
    intro p seen hseen hp
    unfold checkAux
    simp only [versionsOf_cons, List.chain'_cons]
    by_cases h0 : mg.Version ≤ 0
    · simp only [if_pos h0]
      constructor
      · intro h; exact absurd h (by simp)
      · rintro ⟨-, hpos⟩
        exact absurd (hpos mg (by simp)) (by omega)
    · simp only [if_neg h0]
      by_cases hlt : mg.Version < p
      · simp only [if_pos hlt]
        constructor
        · intro h; exact absurd h (by simp)
        · rintro ⟨⟨hch, -⟩, -⟩
          omega
      · simp only [if_neg hlt]
        by_cases hmem : mg.Version ∈ seen
        · simp only [if_pos hmem]
          have hle : mg.Version ≤ p := hseen _ hmem
          constructor
          · intro h; exact absurd h (by simp)
          · rintro ⟨⟨hch, -⟩, -⟩
            omega
        · simp only [if_neg hmem]
          have hplt : p < mg.Version := by
            rcases hp with hp | hp
            · omega
            · rcases lt_or_eq_of_le (le_of_not_lt hlt) with h | h
              · exact h
              · exact absurd (h ▸ hp) hmem
          have ih2 := ih mg.Version (mg.Version :: seen)
            (by
              intro s hs
              rcases List.mem_cons.mp hs with h | h
              · omega
              · exact le_of_lt (lt_of_le_of_lt (hseen _ h) hplt))
            (Or.inr (by simp))
          rw [ih2]
          constructor
          · rintro ⟨hch, hpos⟩
            refine ⟨⟨hplt, hch⟩, ?_⟩
            intro mg2 hmg2
            rcases List.mem_cons.mp hmg2 with h | h
            · subst h; omega
            · exact hpos mg2 h
          · rintro ⟨⟨-, hch⟩, hpos⟩
            exact ⟨hch, fun mg2 hmg2 => hpos mg2 (List.mem_cons_of_mem _ hmg2)⟩

theorem checkList_iff (l : List (Migration Db)) :
    checkAux 0 [] l = true ↔ ValidSources l := by
  rw [checkAux_iff l 0 [] (by simp) (Or.inl le_rfl)]
  rw [ValidSources]
  cases h : l with
  | nil => simp
  | cons mg rest =>
    simp only [versionsOf_cons, List.chain'_cons]
    constructor
    · rintro ⟨⟨-, hch⟩, hpos⟩
      exact ⟨hch, hpos⟩
    · rintro ⟨hch, hpos⟩
      exact ⟨⟨hpos mg (by simp), hch⟩, hpos⟩

theorem check_iff {σ : Type} (m : Migrator σ Db) :
    m.check = true ↔ ValidSources m.Sources :=
  checkList_iff m.Sources

end CheckLemmas

section SearchLemmas

variable {Db : Type}

theorem binarySearchFunc_cons_le {t : Int} {mg : Migration Db}
    (l : List (Migration Db)) (h : t ≤ mg.Version) :
    binarySearchFunc (mg :: l) t = (0, decide (mg.Version = t)) := by
  simp only [binarySearchFunc, List.findIdx_cons, decide_eq_true h, cond_true]
  rfl

theorem binarySearchFunc_cons_gt {t : Int} {mg : Migration Db}
    (l : List (Migration Db)) (h : ¬ t ≤ mg.Version) :
    binarySearchFunc (mg :: l) t =
      ((binarySearchFunc l t).1 + 1, (binarySearchFunc l t).2) := by
  simp only [binarySearchFunc, List.findIdx_cons, decide_eq_false h, cond_false]
  cases hg : l.get? (List.findIdx (fun mg => decide (t ≤ mg.Version)) l) with
  | none => simp only [List.get?_cons_succ, hg]
  | some mg2 => simp only [List.get?_cons_succ, hg]

theorem lookupVersion_cons_gt {t : Int} {mg : Migration Db}
    (l : List (Migration Db)) (h : ¬ t ≤ mg.Version) :
    lookupVersion (mg :: l) t = lookupVersion l t := by
  unfold lookupVersion
  rw [binarySearchFunc_cons_gt l h]
  rcases hb : binarySearchFunc l t with ⟨i, b⟩
  cases b with
  | false => rfl
  | true =>
    show (mg :: l).get? (i + 1) = l.get? i
    exact List.get?_cons_succ

theorem binarySearch_found_mem {t : Int} (l : List (Migration Db))
    (h : (binarySearchFunc l t).2 = true) : t ∈ versionsOf l := by
  simp only [binarySearchFunc] at h
  cases hg : l.get? (List.findIdx (fun mg => decide (t ≤ mg.Version)) l) with
  | none => rw [hg] at h; simp at h
  | some mg =>
    rw [hg] at h
    simp only [decide_eq_true_eq] at h
    have hmem : mg ∈ l := List.get?_mem hg
    rw [← h]
    exact List.mem_map_of_mem Migration.Version hmem

theorem lookupVersion_eq_some {t : Int} {mg : Migration Db}
    (l : List (Migration Db)) (h : lookupVersion l t = some mg) :
    mg ∈ l ∧ mg.Version = t := by
  simp only [lookupVersion, binarySearchFunc] at h
  cases hg : l.get? (List.findIdx (fun mg => decide (t ≤ mg.Version)) l) with
  | none => rw [hg] at h; simp at h
  | some mg2 =>
    rw [hg] at h
    dsimp only [] at h
    by_cases hv : mg2.Version = t
    · rw [decide_eq_true hv] at h
      dsimp only [] at h
      rw [hg] at h
      simp only [Option.some.injEq] at h
      subst h
      exact ⟨List.get?_mem hg, hv⟩
    · rw [decide_eq_false hv] at h
      simp at h

theorem binarySearch_not_found {t : Int} (l : List (Migration Db))
    (h : t ∉ versionsOf l) : (binarySearchFunc l t).2 = false := by
  cases hb : (binarySearchFunc l t).2 with
  | false => rfl
  | true => exact absurd (binarySearch_found_mem l hb) h

theorem lookupVersion_of_mem_sorted {t : Int} (l : List (Migration Db))
    (hs : List.Pairwise (· < ·) (versionsOf l)) (hmem : t ∈ versionsOf l) :
    ∃ mg, lookupVersion l t = some mg ∧ mg ∈ l ∧ mg.Version = t := by
  induction l with
  | nil => simp at hmem
  | cons mg rest ih =>
    rw [versionsOf_cons, List.pairwise_cons] at hs
    by_cases hle : t ≤ mg.Version
    · have ht : mg.Version = t := by
        rcases List.mem_cons.mp hmem with h | h
        · omega
        · have := hs.1 t h
          omega
      refine ⟨mg, ?_, by simp, ht⟩
      unfold lookupVersion
      rw [binarySearchFunc_cons_le rest hle, decide_eq_true ht]
      rfl
    · have ht : t ∈ versionsOf rest := by
        rcases List.mem_cons.mp hmem with h | h
        · omega
        · exact h
      obtain ⟨mg2, hl, hm, hv⟩ := ih hs.2 ht
      exact ⟨mg2, by rw [lookupVersion_cons_gt rest hle]; exact hl,
        List.mem_cons_of_mem _ hm, hv⟩

end SearchLemmas

section MaxRowLemmas

theorem maxRow_eq_none_iff (l : List Int) : maxRow l = none ↔ l = [] := by
  cases l with
  | nil => simp [maxRow]
  | cons v vs =>
    rw [maxRow]
    cases maxRow vs <;> simp

theorem maxRow_sorted (l : List Int) (v : Int)
    (hs : List.Chain' (· > ·) (v :: l)) : maxRow (v :: l) = some v := by
  induction l generalizing v with
  | nil => rfl
  | cons w vs ih =>
    rw [List.chain'_cons] at hs
    have h2 := ih w hs.2
    rw [maxRow, h2]
    show some (max v w) = some v
    have : max v w = v := by omega
    rw [this]

theorem mem_le_maxRow {a : Int} (l : List Int) (ha : a ∈ l) (m : Int)
    (hm : maxRow l = some m) : a ≤ m := by
  induction l generalizing m with
  | nil => simp at ha
  | cons v vs ih =>
    rw [maxRow] at hm
    cases hmr : maxRow vs with
    | none =>
      rw [hmr] at hm
      have : vs = [] := (maxRow_eq_none_iff vs).mp hmr
      subst this
      simp only [List.mem_singleton] at ha
      show a ≤ m
      have : some v = some m := hm
      simp only [Option.some.injEq] at this
      omega
    | some mw =>
      rw [hmr] at hm
      show a ≤ m
      have hmm : some (max v mw) = some m := hm
      simp only [Option.some.injEq] at hmm
      rcases List.mem_cons.mp ha with h | h
      · subst h; omega
      · have := ih h mw hmr
        omega

end MaxRowLemmas

section StoreOpLemmas

theorem FI_init (bad : Option Int) (s : Sqlite3State) :
    (sqlite3StoreFI bad).init s = (s, true) := rfl

theorem FI_release (bad : Option Int) (s : Sqlite3State) :
    (sqlite3StoreFI bad).release s =
      ({ applied := s.applied, locked := false }, true) := rfl

theorem FI_lock_free (bad : Option Int) (s : Sqlite3State)
    (h : s.locked = false) :
    (sqlite3StoreFI bad).lock s =
      ({ applied := s.applied, locked := true }, true) := by
  simp [sqlite3StoreFI, h]

theorem FI_insert_fresh (bad : Option Int) (v : Int) (s : Sqlite3State)
    (h1 : bad ≠ some v) (h2 : v ∉ s.applied) :
    (sqlite3StoreFI bad).insert v s =
      ({ applied := v :: s.applied, locked := s.locked }, true) := by
  simp only [sqlite3StoreFI]
  rw [if_neg h1, if_neg h2]

theorem FI_insert_bad (v : Int) (s : Sqlite3State) :
    (sqlite3StoreFI (some v)).insert v s = (s, false) := by
  simp [sqlite3StoreFI]

theorem FI_remove (bad : Option Int) (v : Int) (s : Sqlite3State) :
    (sqlite3StoreFI bad).remove v s =
      ({ applied := s.applied.erase v, locked := s.locked }, true) := rfl

theorem FI_version_initial (bad : Option Int) (s : Sqlite3State)
    (h : maxRow s.applied = none) :
    (sqlite3StoreFI bad).version s = (s, VersionRes.initial) := by
  simp only [sqlite3StoreFI]
  rw [h]

theorem FI_version_ok (bad : Option Int) (s : Sqlite3State) (v : Int)
    (h : maxRow s.applied = some v) :
    (sqlite3StoreFI bad).version s = (s, VersionRes.ok v) := by
  simp only [sqlite3StoreFI]
  rw [h]

theorem finishRel_FI_true {Db : Type} (bad : Option Int)
    (w : World Sqlite3State Db) (n : Nat) (err : Option UpError)
    (evs : List Event) :
    finishRel (sqlite3StoreFI bad) true w n err evs =
      { world := { store := { applied := w.store.applied, locked := false },
                   db := w.db },
        n := n, err := err, events := evs ++ [Event.release] } := by
  simp [finishRel, FI_release]

theorem finishRel_false {σ Db : Type} (ops : StoreOps σ) (w : World σ Db)
    (n : Nat) (err : Option UpError) (evs : List Event) :
    finishRel ops false w n err evs =
      { world := w, n := n, err := err, events := evs } := rfl

end StoreOpLemmas

section RunStepLemmas

variable {σ Db : Type}

theorem runWalk_nil (m : Migrator σ Db) (w : World σ Db) (n : Nat)
    (evs : List Event) :
    m.runWalk w n evs [] = finishRel m.Store true w n none evs := rfl

theorem runWalk_cons_apply_fail (m : Migrator σ Db) (w : World σ Db)
    (n : Nat) (evs : List Event) (mg : Migration Db)
    (rest : List (Migration Db)) (hdb : mg.run w.db = none) :
    m.runWalk w n evs (mg :: rest) =
      finishRel m.Store (!m.HoldLockOnFailure) w n
        (some (UpError.applyFailed mg.Version))
        (evs ++ [Event.applyCall mg.Version]) := by
  simp only [Migrator.runWalk, hdb]

theorem runWalk_cons_ok (m : Migrator σ Db) (w : World σ Db)
    (n : Nat) (evs : List Event) (mg : Migration Db)
    (rest : List (Migration Db)) (db1 : Db) (s1 : σ)
    (hdb : mg.run w.db = some db1)
    (hins : m.Store.insert mg.Version w.store = (s1, true)) :
    m.runWalk w n evs (mg :: rest) =
      m.runWalk { store := s1, db := db1 } (n + 1)
        (evs ++ [Event.applyCall mg.Version] ++ [Event.insert mg.Version])
        rest := by
  simp only [Migrator.runWalk, hdb, hins, if_true]

theorem runWalk_cons_insert_fail (m : Migrator σ Db) (w : World σ Db)
    (n : Nat) (evs : List Event) (mg : Migration Db)
    (rest : List (Migration Db)) (db1 : Db) (s1 : σ)
    (hdb : mg.run w.db = some db1)
    (hins : m.Store.insert mg.Version w.store = (s1, false)) :
    m.runWalk w n evs (mg :: rest) =
      finishRel m.Store (!m.HoldLockOnFailure) { store := s1, db := db1 } n
        (some (UpError.insertFailed mg.Version))
        (evs ++ [Event.applyCall mg.Version] ++ [Event.insert mg.Version]) := by
  simp only [Migrator.runWalk, hdb, hins, Bool.false_eq_true, if_false]

theorem run_check_fail (m : Migrator σ Db) (w : World σ Db) (tgt : Int)
    (h : m.check = false) :
    m.run w tgt =
      { world := w, n := 0, err := some UpError.invalidSources,
        events := [] } := by
  simp [Migrator.run, h]

theorem runFrom_empty (m : Migrator σ Db) (w3 : World σ Db)
    (remote tgt : Int) (evs : List Event)
    (h : (m.Sources.filter fun mg =>
      decide (remote < mg.Version ∧ (tgt = RunTargetLatest ∨ mg.Version ≤ tgt))) = []) :
    m.runFrom w3 remote tgt evs = finishRel m.Store true w3 0 none evs := by
  simp only [Migrator.runFrom, h]
  rfl

theorem runFrom_walk (m : Migrator σ Db) (w3 : World σ Db)
    (remote tgt : Int) (evs : List Event)
    (h : (m.Sources.filter fun mg =>
      decide (remote < mg.Version ∧ (tgt = RunTargetLatest ∨ mg.Version ≤ tgt))) ≠ []) :
    m.runFrom w3 remote tgt evs =
      m.runWalk w3 0 evs
        (m.Sources.filter fun mg =>
          decide (remote < mg.Version ∧ (tgt = RunTargetLatest ∨ mg.Version ≤ tgt))) := by
  simp only [Migrator.runFrom]
  rw [if_neg (by simpa [List.isEmpty_iff] using h)]

theorem run_to_runFrom {Db : Type} (bad : Option Int)
    (m : Migrator Sqlite3State Db) (w : World Sqlite3State Db) (tgt : Int)
    (hS : m.Store = sqlite3StoreFI bad) (hchk : m.check = true)
    (hlk : w.store.locked = false) :
    m.run w tgt =
      m.runFrom
        { store := { applied := w.store.applied, locked := true }, db := w.db }
        ((maxRow w.store.applied).getD 0) tgt
        [Event.init, Event.lock, Event.version] := by
  rw [Migrator.run, hchk]
  simp only [Bool.not_true, Bool.false_eq_true, if_false]
  rw [hS, FI_init]
  dsimp only
  rw [FI_lock_free bad _ hlk]
  dsimp only
  cases hmr : maxRow w.store.applied with
  | none =>
    rw [FI_version_initial bad { applied := w.store.applied, locked := true } hmr]
    rfl
  | some v =>
    rw [FI_version_ok bad { applied := w.store.applied, locked := true } v hmr]
    rfl

end RunStepLemmas

section RunWalkLemmas

variable {Db : Type}

/-- The event block of one completed forward step. -/
def applyEvents {Db : Type} (l : List (Migration Db)) : List Event :=
  l.flatMap fun mg => [Event.applyCall mg.Version, Event.insert mg.Version]

@[simp] theorem applyEvents_nil : applyEvents ([] : List (Migration Db)) = [] := rfl

@[simp] theorem applyEvents_cons (mg : Migration Db) (l : List (Migration Db)) :
    applyEvents (mg :: l) =
      Event.applyCall mg.Version :: Event.insert mg.Version :: applyEvents l := rfl

theorem runWalk_total (bad : Option Int) (m : Migrator Sqlite3State Db)
    (hS : m.Store = sqlite3StoreFI bad) (l : List (Migration Db)) :
    ∀ (w : World Sqlite3State Db) (n : Nat) (evs : List Event),
    (∀ mg ∈ l, TotalRun mg) →
    List.Pairwise (· < ·) (versionsOf l) →
    (∀ mg ∈ l, ∀ a ∈ w.store.applied, a < mg.Version) →
    (∀ mg ∈ l, bad ≠ some mg.Version) →
    m.runWalk w n evs l =
      { world := { store := { applied := (versionsOf l).reverse ++ w.store.applied,
                              locked := false },
                   db := (m.runWalk w n evs l).world.db },
        n := n + l.length,
        err := none,
        events := evs ++ applyEvents l ++ [Event.release] } := by
  induction l with
  | nil =>
    intro w n evs _ _ _ _
    rw [runWalk_nil, hS, finishRel_FI_true]
    simp
  | cons mg rest ih =>
    intro w n evs htot hsort hfresh hbad
    obtain ⟨db1, hdb1⟩ := Option.isSome_iff_exists.mp (htot mg (by simp) w.db)
    have hnotmem : mg.Version ∉ w.store.applied := by
      intro hc
      exact absurd (hfresh mg (by simp) _ hc) (by omega)
    have hins : m.Store.insert mg.Version w.store =
        ({ applied := mg.Version :: w.store.applied, locked := w.store.locked },
          true) := by
      rw [hS]
      exact FI_insert_fresh bad _ _ (hbad mg (by simp)) hnotmem
    rw [runWalk_cons_ok m w n evs mg rest db1 _ hdb1 hins]
    rw [versionsOf_cons, List.pairwise_cons] at hsort
    rw [ih _ (n + 1) _ (fun mg2 h2 => htot mg2 (List.mem_cons_of_mem _ h2))
      hsort.2
      (by
        intro mg2 h2 a ha
        rcases List.mem_cons.mp ha with h | h
        · subst h
          exact hsort.1 mg2.Version (List.mem_map_of_mem Migration.Version h2)
        · exact hfresh mg2 (List.mem_cons_of_mem _ h2) a h)
      (fun mg2 h2 => hbad mg2 (List.mem_cons_of_mem _ h2))]
    simp only [versionsOf_cons, List.reverse_cons, List.append_assoc,
      List.singleton_append, applyEvents_cons, List.length_cons]
    congr 1
    omega

end RunWalkLemmas

section RunWalkFailLemmas

variable {Db : Type}

theorem finishRel_FI_nothold (bad : Option Int) (hold : Bool)
    (w : World Sqlite3State Db) (n : Nat) (err : Option UpError)
    (evs : List Event) :
    finishRel (sqlite3StoreFI bad) (!hold) w n err evs =
      { world := { store := { applied := w.store.applied,
                              locked := if hold then w.store.locked else false },
                   db := w.db },
        n := n, err := err,
        events := evs ++ if hold then [] else [Event.release] } := by
  cases hold with
  | true => simp [finishRel_false]
  | false => simp [finishRel_FI_true]

theorem runWalk_fail_apply (bad : Option Int) (m : Migrator Sqlite3State Db)
    (hS : m.Store = sqlite3StoreFI bad) (mgk : Migration Db)
    (post : List (Migration Db)) (hfail : ∀ d, mgk.run d = none)
    (pre : List (Migration Db)) :
    ∀ (w : World Sqlite3State Db) (n : Nat) (evs : List Event),
    (∀ mg ∈ pre, TotalRun mg) →
    List.Pairwise (· < ·) (versionsOf pre) →
    (∀ mg ∈ pre, ∀ a ∈ w.store.applied, a < mg.Version) →
    (∀ mg ∈ pre, bad ≠ some mg.Version) →
    m.runWalk w n evs (pre ++ mgk :: post) =
      { world := { store := { applied := (versionsOf pre).reverse ++ w.store.applied,
                              locked := if m.HoldLockOnFailure then w.store.locked
                                        else false },
                   db := (m.runWalk w n evs (pre ++ mgk :: post)).world.db },
        n := n + pre.length,
        err := some (UpError.applyFailed mgk.Version),
        events := evs ++ applyEvents pre ++ [Event.applyCall mgk.Version] ++
          if m.HoldLockOnFailure then [] else [Event.release] } := by
  induction pre with
  | nil =>
    intro w n evs _ _ _ _
    rw [List.nil_append, runWalk_cons_apply_fail m w n evs mgk post (hfail w.db),
      hS, finishRel_FI_nothold bad m.HoldLockOnFailure]
    simp
  | cons mg pre' ih =>
    intro w n evs htot hsort hfresh hbad
    obtain ⟨db1, hdb1⟩ := Option.isSome_iff_exists.mp (htot mg (by simp) w.db)
    have hnotmem : mg.Version ∉ w.store.applied := by
      intro hc
      exact absurd (hfresh mg (by simp) _ hc) (by omega)
    have hins : m.Store.insert mg.Version w.store =
        ({ applied := mg.Version :: w.store.applied, locked := w.store.locked },
          true) := by
      rw [hS]
      exact FI_insert_fresh bad _ _ (hbad mg (by simp)) hnotmem
    rw [List.cons_append, runWalk_cons_ok m w n evs mg _ db1 _ hdb1 hins]
    rw [versionsOf_cons, List.pairwise_cons] at hsort
    rw [ih _ (n + 1) _ (fun mg2 h2 => htot mg2 (List.mem_cons_of_mem _ h2))
      hsort.2
      (by
        intro mg2 h2 a ha
        rcases List.mem_cons.mp ha with h | h
        · subst h
          exact hsort.1 mg2.Version (List.mem_map_of_mem Migration.Version h2)
        · exact hfresh mg2 (List.mem_cons_of_mem _ h2) a h)
      (fun mg2 h2 => hbad mg2 (List.mem_cons_of_mem _ h2))]
    simp only [versionsOf_cons, List.reverse_cons, List.append_assoc,
      List.singleton_append, applyEvents_cons, List.length_cons]
    congr 1
    omega

theorem runWalk_fail_insert (m : Migrator Sqlite3State Db)
    (mgk : Migration Db) (hS : m.Store = sqlite3StoreFI (some mgk.Version))
    (post : List (Migration Db)) (htotk : TotalRun mgk)
    (pre : List (Migration Db)) :
    ∀ (w : World Sqlite3State Db) (n : Nat) (evs : List Event),
    (∀ mg ∈ pre, TotalRun mg) →
    List.Pairwise (· < ·) (versionsOf pre) →
    (∀ mg ∈ pre, ∀ a ∈ w.store.applied, a < mg.Version) →
    (∀ mg ∈ pre, mg.Version ≠ mgk.Version) →
    m.runWalk w n evs (pre ++ mgk :: post) =
      { world := { store := { applied := (versionsOf pre).reverse ++ w.store.applied,
                              locked := if m.HoldLockOnFailure then w.store.locked
                                        else false },
                   db := (m.runWalk w n evs (pre ++ mgk :: post)).world.db },
        n := n + pre.length,
        err := some (UpError.insertFailed mgk.Version),
        events := evs ++ applyEvents pre ++
          [Event.applyCall mgk.Version, Event.insert mgk.Version] ++
          if m.HoldLockOnFailure then [] else [Event.release] } := by
  induction pre with
  | nil =>
    intro w n evs _ _ _ _
    obtain ⟨db1, hdb1⟩ := Option.isSome_iff_exists.mp (htotk w.db)
    have hins : m.Store.insert mgk.Version w.store = (w.store, false) := by
      rw [hS]
      exact FI_insert_bad mgk.Version w.store
    rw [List.nil_append,
      runWalk_cons_insert_fail m w n evs mgk post db1 _ hdb1 hins, hS,
      finishRel_FI_nothold (some mgk.Version) m.HoldLockOnFailure]
    simp
  | cons mg pre' ih =>
    intro w n evs htot hsort hfresh hne
    obtain ⟨db1, hdb1⟩ := Option.isSome_iff_exists.mp (htot mg (by simp) w.db)
    have hnotmem : mg.Version ∉ w.store.applied := by
      intro hc
      exact absurd (hfresh mg (by simp) _ hc) (by omega)
    have hins : m.Store.insert mg.Version w.store =
        ({ applied := mg.Version :: w.store.applied, locked := w.store.locked },
          true) := by
      rw [hS]
      refine FI_insert_fresh _ _ _ ?_ hnotmem
      intro hc
      simp only [Option.some.injEq] at hc
      exact hne mg (by simp) hc.symm
    rw [List.cons_append, runWalk_cons_ok m w n evs mg _ db1 _ hdb1 hins]
    rw [versionsOf_cons, List.pairwise_cons] at hsort
    rw [ih _ (n + 1) _ (fun mg2 h2 => htot mg2 (List.mem_cons_of_mem _ h2))
      hsort.2
      (by
        intro mg2 h2 a ha
        rcases List.mem_cons.mp ha with h | h
        · subst h
          exact hsort.1 mg2.Version (List.mem_map_of_mem Migration.Version h2)
        · exact hfresh mg2 (List.mem_cons_of_mem _ h2) a h)
      (fun mg2 h2 => hne mg2 (List.mem_cons_of_mem _ h2))]
    simp only [versionsOf_cons, List.reverse_cons, List.append_assoc,
      List.singleton_append, applyEvents_cons, List.length_cons]
    congr 1
    omega

end RunWalkFailLemmas

section RevertStepLemmas

variable {σ Db : Type}

theorem revertLoop_break (m : Migrator σ Db) (tgt : Int) (fuel : Nat)
    (remote : Int) (w : World σ Db) (n : Nat) (evs : List Event)
    (h : remote ≤ tgt) :
    m.revertLoop tgt (fuel + 1) remote w n evs =
      some (finishRel m.Store true w n none evs) := by
  simp only [Migrator.revertLoop, if_pos h]

theorem revertLoop_missing (m : Migrator σ Db) (tgt : Int) (fuel : Nat)
    (remote : Int) (w : World σ Db) (n : Nat) (evs : List Event)
    (h : ¬ remote ≤ tgt) (hlk : lookupVersion m.Sources remote = none) :
    m.revertLoop tgt (fuel + 1) remote w n evs =
      some (finishRel m.Store (!m.HoldLockOnFailure) w n
        (some (UpError.missingRemote remote)) evs) := by
  simp only [Migrator.revertLoop, if_neg h, hlk]

theorem revertLoop_revert_fail (m : Migrator σ Db) (tgt : Int) (fuel : Nat)
    (remote : Int) (w : World σ Db) (n : Nat) (evs : List Event)
    (mg : Migration Db) (h : ¬ remote ≤ tgt)
    (hlk : lookupVersion m.Sources remote = some mg)
    (hrev : mg.revert w.db = none) :
    m.revertLoop tgt (fuel + 1) remote w n evs =
      some (finishRel m.Store (!m.HoldLockOnFailure) w n
        (some (UpError.revertFailed mg.Version))
        (evs ++ [Event.revertCall mg.Version])) := by
  simp only [Migrator.revertLoop, if_neg h, hlk, hrev]

theorem revertLoop_step_initial (m : Migrator σ Db) (tgt : Int) (fuel : Nat)
    (remote : Int) (w : World σ Db) (n : Nat) (evs : List Event)
    (mg : Migration Db) (db1 : Db) (s1 s2 : σ) (h : ¬ remote ≤ tgt)
    (hlk : lookupVersion m.Sources remote = some mg)
    (hrev : mg.revert w.db = some db1)
    (hrem : m.Store.remove mg.Version w.store = (s1, true))
    (hver : m.Store.version s1 = (s2, VersionRes.initial)) :
    m.revertLoop tgt (fuel + 1) remote w n evs =
      some (finishRel m.Store (!m.HoldLockOnFailure)
        { store := s2, db := db1 } (n + 1) none
        (evs ++ [Event.revertCall mg.Version] ++ [Event.remove mg.Version] ++
          [Event.version])) := by
  simp only [Migrator.revertLoop, if_neg h, hlk, hrev, hrem, hver,
    Bool.not_true, Bool.false_eq_true, if_false, List.append_assoc,
    List.singleton_append]

theorem revertLoop_step_ok (m : Migrator σ Db) (tgt : Int) (fuel : Nat)
    (remote : Int) (w : World σ Db) (n : Nat) (evs : List Event)
    (mg : Migration Db) (db1 : Db) (s1 s2 : σ) (v : Int) (h : ¬ remote ≤ tgt)
    (hlk : lookupVersion m.Sources remote = some mg)
    (hrev : mg.revert w.db = some db1)
    (hrem : m.Store.remove mg.Version w.store = (s1, true))
    (hver : m.Store.version s1 = (s2, VersionRes.ok v)) :
    m.revertLoop tgt (fuel + 1) remote w n evs =
      m.revertLoop tgt fuel v { store := s2, db := db1 } (n + 1)
        (evs ++ [Event.revertCall mg.Version] ++ [Event.remove mg.Version] ++
          [Event.version]) := by
  simp only [Migrator.revertLoop, if_neg h, hlk, hrev, hrem, hver,
    Bool.not_true, Bool.false_eq_true, if_false, List.append_assoc,
    List.singleton_append]

end RevertStepLemmas

section RevertHeadLemmas

variable {Db : Type}

theorem revert_check_fail {σ : Type} (m : Migrator σ Db) (w : World σ Db)
    (tgt : Int) (fuel : Nat) (h : m.check = false) :
    m.revert w tgt fuel =
      some { world := w, n := 0, err := some UpError.invalidSources,
             events := [] } := by
  simp [Migrator.revert, h]

theorem revert_missing_target {σ : Type} (m : Migrator σ Db) (w : World σ Db)
    (tgt : Int) (fuel : Nat) (hchk : m.check = true)
    (ht : tgt ≠ RevertTargetInitial)
    (hnf : (binarySearchFunc m.Sources tgt).2 = false) :
    m.revert w tgt fuel =
      some { world := w, n := 0, err := some (UpError.missingTarget tgt),
             events := [] } := by
  rw [Migrator.revert, hchk]
  simp only [Bool.not_true, Bool.false_eq_true, if_false]
  rw [if_pos ⟨ht, hnf⟩]

theorem revert_head (bad : Option Int) (m : Migrator Sqlite3State Db)
    (w : World Sqlite3State Db) (tgt : Int) (fuel : Nat)
    (hS : m.Store = sqlite3StoreFI bad) (hchk : m.check = true)
    (htgt : tgt = RevertTargetInitial ∨ (binarySearchFunc m.Sources tgt).2 = true)
    (hlk : w.store.locked = false) :
    m.revert w tgt fuel =
      match maxRow w.store.applied with
      | none =>
        some { world := { store := { applied := w.store.applied,
                                     locked := false }, db := w.db },
               n := 0, err := none,
               events := [Event.init, Event.lock, Event.version,
                 Event.release] }
      | some v =>
        m.revertLoop tgt fuel v
          { store := { applied := w.store.applied, locked := true },
            db := w.db }
          0 [Event.init, Event.lock, Event.version] := by
  rw [Migrator.revert, hchk]
  simp only [Bool.not_true, Bool.false_eq_true, if_false]
  rw [if_neg (by
    rintro ⟨h1, h2⟩
    rcases htgt with h | h
    · exact h1 h
    · rw [h] at h2; simp at h2)]
  rw [hS, FI_init]
  dsimp only
  rw [FI_lock_free bad _ hlk]
  dsimp only
  cases hmr : maxRow w.store.applied with
  | none =>
    rw [FI_version_initial bad { applied := w.store.applied, locked := true } hmr]
    simp [finishRel_FI_true]
  | some v =>
    rw [FI_version_ok bad { applied := w.store.applied, locked := true } v hmr]
    simp

end RevertHeadLemmas

section RevertLoopSuccess

variable {Db : Type}

/-- The event block of the successful reversion of one listed version. -/
def revertEvents (vs : List Int) : List Event :=
  vs.flatMap fun v => [Event.revertCall v, Event.remove v, Event.version]

@[simp] theorem revertEvents_nil : revertEvents [] = [] := rfl

@[simp] theorem revertEvents_cons (v : Int) (vs : List Int) :
    revertEvents (v :: vs) =
      Event.revertCall v :: Event.remove v :: Event.version ::
        revertEvents vs := rfl

theorem sorted_desc_mem_le (v : Int) (l : List Int)
    (hs : List.Chain' (· > ·) (v :: l)) : ∀ a ∈ v :: l, a ≤ v := by
  intro a ha
  exact mem_le_maxRow _ ha v (maxRow_sorted l v hs)

theorem revertLoop_success (bad : Option Int) (m : Migrator Sqlite3State Db)
    (hS : m.Store = sqlite3StoreFI bad) (tgt : Int)
    (hsrc : List.Pairwise (· < ·) (versionsOf m.Sources))
    (htot : ∀ mg ∈ m.Sources, TotalRevert mg) (rest : List Int) :
    ∀ (remote : Int) (fuel : Nat) (w : World Sqlite3State Db) (n : Nat)
      (evs : List Event),
    w.store.applied = remote :: rest →
    List.Chain' (· > ·) (remote :: rest) →
    rest.length + 1 ≤ fuel →
    (∀ v ∈ remote :: rest, tgt < v → v ∈ versionsOf m.Sources) →
    ∃ out, m.revertLoop tgt fuel remote w n evs = some out ∧
      out.err = none ∧
      out.n = n + ((remote :: rest).filter fun v => decide (tgt < v)).length ∧
      out.world.store.applied =
        ((remote :: rest).filter fun v => decide (v ≤ tgt)) ∧
      out.world.store.locked =
        (if ((remote :: rest).filter fun v => decide (v ≤ tgt)) = [] ∧
            m.HoldLockOnFailure = true
         then w.store.locked else false) ∧
      out.events = evs ++
        revertEvents ((remote :: rest).filter fun v => decide (tgt < v)) ++
        (if ((remote :: rest).filter fun v => decide (v ≤ tgt)) = [] ∧
            m.HoldLockOnFailure = true
         then [] else [Event.release]) := by
  induction rest with
  | nil =>
    intro remote fuel w n evs hap hsort hfuel hcov
    obtain ⟨f, rfl⟩ : ∃ f, fuel = f + 1 := ⟨fuel - 1, by omega⟩
    by_cases hle : remote ≤ tgt
    · refine ⟨_, revertLoop_break m tgt f remote w n evs hle, ?_⟩
      rw [hS, finishRel_FI_true]
      have hfe : ([remote].filter fun v => decide (v ≤ tgt)) = [remote] := by
        simp [hle]
      have hfg : ([remote].filter fun v => decide (tgt < v)) = [] := by
        simp; omega
      refine ⟨rfl, ?_, ?_, ?_, ?_⟩
      · rw [hfg]; simp
      · rw [hfe, hap]
      · rw [hfe]; simp
      · rw [hfg, hfe]; simp
    · have hrm : remote ∈ versionsOf m.Sources :=
        hcov remote (by simp) (by omega)
      obtain ⟨mg, hlk, hmem, hver⟩ := lookupVersion_of_mem_sorted m.Sources hsrc hrm
      obtain ⟨db1, hdb1⟩ := Option.isSome_iff_exists.mp (htot mg hmem w.db)
      have hrem : m.Store.remove mg.Version w.store =
          ({ applied := [], locked := w.store.locked }, true) := by
        rw [hS, FI_remove, hap, hver, List.erase_cons_head]
      have hverq : m.Store.version
          { applied := ([] : List Int), locked := w.store.locked } =
          ({ applied := [], locked := w.store.locked }, VersionRes.initial) := by
        rw [hS]
        exact FI_version_initial bad _ rfl
      refine ⟨_, revertLoop_step_initial m tgt f remote w n evs mg db1 _ _ hle
        hlk hdb1 hrem hverq, ?_⟩
      rw [hS, finishRel_FI_nothold]
      have hfe : ([remote].filter fun v => decide (v ≤ tgt)) = [] := by
        simp; omega
      have hfg : ([remote].filter fun v => decide (tgt < v)) = [remote] := by
        simp; omega
      rw [hfe, hfg]
      cases hhold : m.HoldLockOnFailure with
      | true =>
        refine ⟨rfl, by simp, rfl, by simp, ?_⟩
        rw [hver]
        simp
      | false =>
        refine ⟨rfl, by simp, rfl, by simp, ?_⟩
        rw [hver]
        simp
  | cons r rest2 ih =>
    intro remote fuel w n evs hap hsort hfuel hcov
    obtain ⟨f, rfl⟩ : ∃ f, fuel = f + 1 := ⟨fuel - 1, by omega⟩
    by_cases hle : remote ≤ tgt
    · refine ⟨_, revertLoop_break m tgt f remote w n evs hle, ?_⟩
      rw [hS, finishRel_FI_true]
      have hall : ∀ a ∈ remote :: r :: rest2, a ≤ tgt := by
        intro a ha
        have := sorted_desc_mem_le remote (r :: rest2) hsort a ha
        omega
      have hfe : ((remote :: r :: rest2).filter fun v => decide (v ≤ tgt)) =
          remote :: r :: rest2 := by
        rw [List.filter_eq_self]
        intro a ha
        simpa using hall a ha
      have hfg : ((remote :: r :: rest2).filter fun v => decide (tgt < v)) =
          [] := by
        rw [List.filter_eq_nil_iff]
        intro a ha
        have := hall a ha
        simp
        omega
      refine ⟨rfl, ?_, ?_, ?_, ?_⟩
      · rw [hfg]; simp
      · rw [hfe, hap]
      · rw [hfe]; simp
      · rw [hfg, hfe]; simp
    · have hrm : remote ∈ versionsOf m.Sources :=
        hcov remote (by simp) (by omega)
      obtain ⟨mg, hlk, hmem, hver⟩ := lookupVersion_of_mem_sorted m.Sources hsrc hrm
      obtain ⟨db1, hdb1⟩ := Option.isSome_iff_exists.mp (htot mg hmem w.db)
      have hrem : m.Store.remove mg.Version w.store =
          ({ applied := r :: rest2, locked := w.store.locked }, true) := by
        rw [hS, FI_remove, hap, hver, List.erase_cons_head]
      have hsort2 : List.Chain' (· > ·) (r :: rest2) :=
        (List.chain'_cons.mp hsort).2
      have hverq : m.Store.version
          { applied := r :: rest2, locked := w.store.locked } =
          ({ applied := r :: rest2, locked := w.store.locked },
            VersionRes.ok r) := by
        rw [hS]
        exact FI_version_ok bad _ r (maxRow_sorted rest2 r hsort2)
      rw [revertLoop_step_ok m tgt f remote w n evs mg db1 _ _ r hle hlk hdb1
        hrem hverq]
      obtain ⟨out, heq, herr, hn, hapo, hlko, hevo⟩ := ih r f
        { store := { applied := r :: rest2, locked := w.store.locked },
          db := db1 }
        (n + 1)
        (evs ++ [Event.revertCall mg.Version] ++ [Event.remove mg.Version] ++
          [Event.version])
        rfl hsort2 (by simpa using hfuel)
        (fun v hv hgt => hcov v (List.mem_cons_of_mem _ hv) hgt)
      have hf1 : ((remote :: r :: rest2).filter fun v => decide (tgt < v)) =
          remote :: ((r :: rest2).filter fun v => decide (tgt < v)) := by
        rw [List.filter_cons,
          if_pos (by simp only [decide_eq_true_eq]; omega)]
      have hf2 : ((remote :: r :: rest2).filter fun v => decide (v ≤ tgt)) =
          ((r :: rest2).filter fun v => decide (v ≤ tgt)) := by
        rw [List.filter_cons,
          if_neg (by simp only [decide_eq_true_eq]; omega)]
      refine ⟨out, heq, herr, ?_, ?_, ?_, ?_⟩
      · rw [hn, hf1]
        simp only [List.length_cons]
        omega
      · rw [hapo, hf2]
      · rw [hlko, hf2]
      · rw [hevo, hver, hf1, hf2]
        simp

end RevertLoopSuccess

section LockLemmas

variable {Db : Type}

theorem FI_insert_locked (bad : Option Int) (v : Int) (s : Sqlite3State) :
    ((sqlite3StoreFI bad).insert v s).1.locked = s.locked := by
  simp only [sqlite3StoreFI]
  by_cases h1 : bad = some v
  · rw [if_pos h1]
  · rw [if_neg h1]
    by_cases h2 : v ∈ s.applied
    · rw [if_pos h2]
    · rw [if_neg h2]

theorem runWalk_locked (bad : Option Int) (m : Migrator Sqlite3State Db)
    (hS : m.Store = sqlite3StoreFI bad) (l : List (Migration Db)) :
    ∀ (w : World Sqlite3State Db) (n : Nat) (evs : List Event),
    w.store.locked = true →
    ((m.runWalk w n evs l).world.store.locked = true ↔
      m.HoldLockOnFailure = true ∧ (m.runWalk w n evs l).err ≠ none) := by
  induction l with
  | nil =>
    intro w n evs _
    rw [runWalk_nil, hS, finishRel_FI_true]
    simp
  | cons mg rest ih =>
    intro w n evs hlk
    cases hdb : mg.run w.db with
    | none =>
      rw [runWalk_cons_apply_fail m w n evs mg rest hdb, hS,
        finishRel_FI_nothold]
      cases hhold : m.HoldLockOnFailure with
      | true => simp [hlk]
      | false => simp
    | some db1 =>
      rcases hins : m.Store.insert mg.Version w.store with ⟨s1, b⟩
      have hs1lk : s1.locked = true := by
        have := FI_insert_locked bad mg.Version w.store
        rw [← hS, hins] at this
        rw [this, hlk]
      cases b with
      | true =>
        rw [runWalk_cons_ok m w n evs mg rest db1 s1 hdb hins]
        exact ih _ (n + 1) _ hs1lk
      | false =>
        rw [runWalk_cons_insert_fail m w n evs mg rest db1 s1 hdb hins, hS,
          finishRel_FI_nothold]
        cases hhold : m.HoldLockOnFailure with
        | true => simp [hs1lk]
        | false => simp

theorem revertLoop_locked (bad : Option Int) (m : Migrator Sqlite3State Db)
    (hS : m.Store = sqlite3StoreFI bad) (tgt : Int) (fuel : Nat) :
    ∀ (remote : Int) (w : World Sqlite3State Db) (n : Nat) (evs : List Event)
      (out : RunOut Sqlite3State Db),
    w.store.locked = true →
    maxRow w.store.applied = some remote →
    m.revertLoop tgt fuel remote w n evs = some out →
    ((out.world.store.locked = true ↔
        m.HoldLockOnFailure = true ∧
          (out.err ≠ none ∨ out.world.store.applied = [])) ∧
      (out.err = none ∧ out.world.store.applied = [] → n < out.n)) := by
  induction fuel with
  | zero =>
    intro remote w n evs out _ _ hloop
    exact absurd hloop (by simp [Migrator.revertLoop])
  | succ f ih =>
    intro remote w n evs out hlk hmr hloop
    have hne : w.store.applied ≠ [] := by
      intro hc
      rw [(maxRow_eq_none_iff w.store.applied).mpr hc] at hmr
      exact absurd hmr (by simp)
    by_cases hle : remote ≤ tgt
    · rw [revertLoop_break m tgt f remote w n evs hle, hS,
        finishRel_FI_true] at hloop
      simp only [Option.some.injEq] at hloop
      subst hloop
      refine ⟨by simp [hne], by simp [hne]⟩
    · cases hlkup : lookupVersion m.Sources remote with
      | none =>
        rw [revertLoop_missing m tgt f remote w n evs hle hlkup, hS,
          finishRel_FI_nothold] at hloop
        simp only [Option.some.injEq] at hloop
        subst hloop
        cases hhold : m.HoldLockOnFailure with
        | true => simp [hlk]
        | false => simp
      | some mg =>
        cases hrev : mg.revert w.db with
        | none =>
          rw [revertLoop_revert_fail m tgt f remote w n evs mg hle hlkup hrev,
            hS, finishRel_FI_nothold] at hloop
          simp only [Option.some.injEq] at hloop
          subst hloop
          cases hhold : m.HoldLockOnFailure with
          | true => simp [hlk]
          | false => simp
        | some db1 =>
          have hrem : m.Store.remove mg.Version w.store =
              ({ applied := w.store.applied.erase mg.Version,
                 locked := w.store.locked }, true) := by
            rw [hS, FI_remove]
          cases hmr2 : maxRow (w.store.applied.erase mg.Version) with
          | none =>
            have hverq : m.Store.version
                { applied := w.store.applied.erase mg.Version,
                  locked := w.store.locked } =
                ({ applied := w.store.applied.erase mg.Version,
                   locked := w.store.locked }, VersionRes.initial) := by
              rw [hS]
              exact FI_version_initial bad _ hmr2
            rw [revertLoop_step_initial m tgt f remote w n evs mg db1 _ _ hle
              hlkup hrev hrem hverq, hS, finishRel_FI_nothold] at hloop
            simp only [Option.some.injEq] at hloop
            subst hloop
            have hemp : w.store.applied.erase mg.Version = [] :=
              (maxRow_eq_none_iff _).mp hmr2
            cases hhold : m.HoldLockOnFailure with
            | true => simp [hlk, hemp]
            | false => simp [hemp]
          | some v =>
            have hverq : m.Store.version
                { applied := w.store.applied.erase mg.Version,
                  locked := w.store.locked } =
                ({ applied := w.store.applied.erase mg.Version,
                   locked := w.store.locked }, VersionRes.ok v) := by
              rw [hS]
              exact FI_version_ok bad _ v hmr2
            rw [revertLoop_step_ok m tgt f remote w n evs mg db1 _ _ v hle
              hlkup hrev hrem hverq] at hloop
            have := ih v
              { store := { applied := w.store.applied.erase mg.Version,
                           locked := w.store.locked },
                db := db1 }
              (n + 1) _ out (by simpa using hlk) (by simpa using hmr2) hloop
            exact ⟨this.1, fun h => by have := this.2 h; omega⟩

end LockLemmas

section GoEquivalence

variable {σ Db : Type}

/-- Forget the count that `migrator.go`'s `Run` does not return. -/
def dropN (out : RunOut σ Db) : GoOut σ Db :=
  { world := out.world, err := out.err, events := out.events }

theorem finishRelGo_dropN (ops : StoreOps σ) (b : Bool) (w : World σ Db)
    (n : Nat) (err : Option UpError) (evs : List Event) :
    finishRelGo ops b w err evs = dropN (finishRel ops b w n err evs) := by
  cases b with
  | true => simp [finishRelGo, finishRel, dropN]
  | false => simp [finishRelGo, finishRel, dropN]

theorem goWalk_nil (m : Migrator σ Db) (remote tgt : Int) (w : World σ Db)
    (evs : List Event) :
    m.runGoWalk remote tgt w evs [] = finishRelGo m.Store true w none evs :=
  rfl

theorem goWalk_cons_skip (m : Migrator σ Db) (remote tgt : Int)
    (w : World σ Db) (evs : List Event) (mg : Migration Db)
    (rest : List (Migration Db))
    (h : ¬ (remote < mg.Version ∧ mg.Version ≤ tgt)) :
    m.runGoWalk remote tgt w evs (mg :: rest) =
      m.runGoWalk remote tgt w evs rest := by
  simp only [Migrator.runGoWalk, if_neg h]

theorem goWalk_cons_apply_fail (m : Migrator σ Db) (remote tgt : Int)
    (w : World σ Db) (evs : List Event) (mg : Migration Db)
    (rest : List (Migration Db))
    (h : remote < mg.Version ∧ mg.Version ≤ tgt)
    (hdb : mg.run w.db = none) :
    m.runGoWalk remote tgt w evs (mg :: rest) =
      finishRelGo m.Store (!m.HoldLockOnFailure) w
        (some (UpError.applyFailed mg.Version))
        (evs ++ [Event.applyCall mg.Version]) := by
  simp only [Migrator.runGoWalk, if_pos h, hdb]

theorem goWalk_cons_ok (m : Migrator σ Db) (remote tgt : Int)
    (w : World σ Db) (evs : List Event) (mg : Migration Db)
    (rest : List (Migration Db)) (db1 : Db) (s1 : σ)
    (h : remote < mg.Version ∧ mg.Version ≤ tgt)
    (hdb : mg.run w.db = some db1)
    (hins : m.Store.insert mg.Version w.store = (s1, true)) :
    m.runGoWalk remote tgt w evs (mg :: rest) =
      m.runGoWalk remote tgt { store := s1, db := db1 }
        (evs ++ [Event.applyCall mg.Version] ++ [Event.insert mg.Version])
        rest := by
  simp only [Migrator.runGoWalk, if_pos h, hdb, hins, if_true]

theorem goWalk_cons_insert_fail (m : Migrator σ Db) (remote tgt : Int)
    (w : World σ Db) (evs : List Event) (mg : Migration Db)
    (rest : List (Migration Db)) (db1 : Db) (s1 : σ)
    (h : remote < mg.Version ∧ mg.Version ≤ tgt)
    (hdb : mg.run w.db = some db1)
    (hins : m.Store.insert mg.Version w.store = (s1, false)) :
    m.runGoWalk remote tgt w evs (mg :: rest) =
      finishRelGo m.Store (!m.HoldLockOnFailure) { store := s1, db := db1 }
        (some (UpError.insertFailed mg.Version))
        (evs ++ [Event.applyCall mg.Version] ++ [Event.insert mg.Version]) := by
  simp only [Migrator.runGoWalk, if_pos h, hdb, hins, Bool.false_eq_true,
    if_false]

theorem goWalk_fusion (m : Migrator σ Db) (remote tgt : Int)
    (l : List (Migration Db)) :
    ∀ (w : World σ Db) (evs : List Event) (n : Nat),
    m.runGoWalk remote tgt w evs l =
      dropN (m.runWalk w n evs
        (l.filter fun mg => decide (remote < mg.Version ∧ mg.Version ≤ tgt))) := by
  induction l with
  | nil =>
    intro w evs n
    rw [List.filter_nil, goWalk_nil, runWalk_nil, finishRelGo_dropN]
  | cons mg rest ih =>
    intro w evs n
    by_cases hc : remote < mg.Version ∧ mg.Version ≤ tgt
    · rw [List.filter_cons, if_pos (by simpa using hc)]
      cases hdb : mg.run w.db with
      | none =>
        rw [goWalk_cons_apply_fail m remote tgt w evs mg rest hc hdb,
          runWalk_cons_apply_fail m w n evs mg _ hdb, finishRelGo_dropN]
      | some db1 =>
        rcases hins : m.Store.insert mg.Version w.store with ⟨s1, b⟩
        cases b with
        | true =>
          rw [goWalk_cons_ok m remote tgt w evs mg rest db1 s1 hc hdb hins,
            runWalk_cons_ok m w n evs mg _ db1 s1 hdb hins]
          exact ih _ _ (n + 1)
        | false =>
          rw [goWalk_cons_insert_fail m remote tgt w evs mg rest db1 s1 hc hdb
            hins, runWalk_cons_insert_fail m w n evs mg _ db1 s1 hdb hins,
            finishRelGo_dropN]
    · rw [List.filter_cons, if_neg (by simpa using hc),
        goWalk_cons_skip m remote tgt w evs mg rest hc]
      exact ih w evs n

theorem runGoFrom_eq (m : Migrator σ Db) (w3 : World σ Db)
    (remote tgt : Int) (evs : List Event) (h : tgt ≠ RunTargetLatest) :
    m.runGoFrom w3 remote tgt evs = dropN (m.runFrom w3 remote tgt evs) := by
  have hfeq : (m.Sources.filter fun mg =>
      decide (remote < mg.Version ∧ (tgt = RunTargetLatest ∨ mg.Version ≤ tgt))) =
      (m.Sources.filter fun mg =>
        decide (remote < mg.Version ∧ mg.Version ≤ tgt)) := by
    refine List.filter_congr ?_
    intro mg _
    simp only [decide_eq_decide]
    constructor
    · rintro ⟨h1, h2 | h2⟩
      · exact absurd h2 h
      · exact ⟨h1, h2⟩
    · rintro ⟨h1, h2⟩
      exact ⟨h1, Or.inr h2⟩
  rw [Migrator.runGoFrom, Migrator.runFrom]
  simp only [hfeq]
  by_cases he : (m.Sources.filter fun mg =>
      decide (remote < mg.Version ∧ mg.Version ≤ tgt)) = []
  · rw [if_pos (List.isEmpty_iff.mpr he), if_pos (List.isEmpty_iff.mpr he),
      finishRelGo_dropN]
  · rw [if_neg (fun hc => he (List.isEmpty_iff.mp hc)),
      if_neg (fun hc => he (List.isEmpty_iff.mp hc))]
    exact goWalk_fusion m remote tgt m.Sources w3 evs 0

theorem runGo_eq_run (m : Migrator σ Db) (w : World σ Db) (tgt : Int)
    (h : tgt ≠ RunTargetLatest) :
    m.runGo w tgt = dropN (m.run w tgt) := by
  rw [Migrator.runGo, Migrator.run]
  cases hchk : m.check with
  | false => simp [dropN]
  | true =>
    simp only [Bool.not_true, Bool.false_eq_true, if_false]
    rcases hi : m.Store.init w.store with ⟨s1, b1⟩
    simp only [hi]
    cases b1 with
    | false => simp [dropN]
    | true =>
      simp only [Bool.not_true, Bool.false_eq_true, if_false]
      rcases hl : m.Store.lock s1 with ⟨s2, b2⟩
      simp only [hl]
      cases b2 with
      | false => simp [dropN]
      | true =>
        simp only [Bool.not_true, Bool.false_eq_true, if_false]
        rcases hv : m.Store.version s2 with ⟨s3, res⟩
        simp only [hv]
        cases res with
        | fail => rw [finishRelGo_dropN m.Store true _ 0]
        | initial => exact runGoFrom_eq m _ 0 tgt _ h
        | ok v => exact runGoFrom_eq m _ v tgt _ h

section RunSpec

variable {Db : Type}

theorem versionsOf_filter (l : List (Migration Db)) (p : Int → Bool) :
    versionsOf (l.filter fun mg => p mg.Version) = (versionsOf l).filter p := by
  induction l with
  | nil => rfl
  | cons mg rest ih =>
    rw [List.filter_cons, versionsOf_cons, List.filter_cons]
    by_cases h : p mg.Version = true
    · rw [if_pos h, if_pos h, versionsOf_cons, ih]
    · rw [if_neg h, if_neg h, ih]

theorem run_total_spec (m : Migrator Sqlite3State Db)
    (w : World Sqlite3State Db) (tgt : Int)
    (hS : m.Store = sqlite3Store) (hv : ValidSources m.Sources)
    (hlk : w.store.locked = false) (htgt : 0 ≤ tgt)
    (htot : ∀ mg ∈ m.Sources,
      (maxRow w.store.applied).getD 0 < mg.Version → mg.Version ≤ tgt →
      TotalRun mg) :
    m.run w tgt =
      { world :=
          { store :=
              { applied :=
                  (versionsOf (m.Sources.filter fun mg =>
                    decide ((maxRow w.store.applied).getD 0 < mg.Version ∧
                      mg.Version ≤ tgt))).reverse ++ w.store.applied,
                locked := false },
            db := (m.run w tgt).world.db },
        n := (m.Sources.filter fun mg =>
          decide ((maxRow w.store.applied).getD 0 < mg.Version ∧
            mg.Version ≤ tgt)).length,
        err := none,
        events := [Event.init, Event.lock, Event.version] ++
          applyEvents (m.Sources.filter fun mg =>
            decide ((maxRow w.store.applied).getD 0 < mg.Version ∧
              mg.Version ≤ tgt)) ++ [Event.release] } := by
  have hchk : m.check = true := (check_iff m).mpr hv
  have hS2 : m.Store = sqlite3StoreFI none := by
    rw [hS, sqlite3Store_eq_FI_none]
  have hpw : List.Pairwise (· < ·) (versionsOf m.Sources) :=
    List.chain'_iff_pairwise.mp hv.1
  have hfeq : (m.Sources.filter fun mg =>
      decide ((maxRow w.store.applied).getD 0 < mg.Version ∧
        (tgt = RunTargetLatest ∨ mg.Version ≤ tgt))) =
      (m.Sources.filter fun mg =>
        decide ((maxRow w.store.applied).getD 0 < mg.Version ∧
          mg.Version ≤ tgt)) := by
    refine List.filter_congr ?_
    intro mg _
    simp only [decide_eq_decide]
    constructor
    · rintro ⟨h1, h2 | h2⟩
      · exact absurd h2 (by rw [RunTargetLatest]; omega)
      · exact ⟨h1, h2⟩
    · rintro ⟨h1, h2⟩
      exact ⟨h1, Or.inr h2⟩
  rw [run_to_runFrom none m w tgt hS2 hchk hlk]
  have hfresh : ∀ mg ∈ (m.Sources.filter fun mg =>
      decide ((maxRow w.store.applied).getD 0 < mg.Version ∧
        mg.Version ≤ tgt)), ∀ a ∈ w.store.applied, a < mg.Version := by
    intro mg hmg a ha
    rw [List.mem_filter] at hmg
    have hcond := hmg.2
    simp only [decide_eq_true_eq] at hcond
    cases hmr : maxRow w.store.applied with
    | none =>
      rw [(maxRow_eq_none_iff _).mp hmr] at ha
      simp at ha
    | some mx =>
      have h1 : a ≤ mx := mem_le_maxRow _ ha mx hmr
      have h2 := hcond.1
      rw [hmr] at h2
      simp only [Option.getD_some] at h2
      omega
  by_cases hemp : (m.Sources.filter fun mg =>
      decide ((maxRow w.store.applied).getD 0 < mg.Version ∧
        mg.Version ≤ tgt)) = []
  · rw [runFrom_empty m _ _ _ _ (hfeq.trans hemp), hS2, finishRel_FI_true,
      hemp]
    simp
  · rw [runFrom_walk m _ _ _ _ (fun hc => hemp (hfeq.symm.trans hc)), hfeq]
    rw [runWalk_total none m hS2
      (m.Sources.filter fun mg =>
        decide ((maxRow w.store.applied).getD 0 < mg.Version ∧
          mg.Version ≤ tgt))
      { store := { applied := w.store.applied, locked := true }, db := w.db }
      0 [Event.init, Event.lock, Event.version]
      (by
        intro mg hmg
        rw [List.mem_filter] at hmg
        have hcond := hmg.2
        simp only [decide_eq_true_eq] at hcond
        exact htot mg hmg.1 hcond.1 hcond.2)
      (by
        have hsub : (versionsOf (m.Sources.filter fun mg =>
            decide ((maxRow w.store.applied).getD 0 < mg.Version ∧
              mg.Version ≤ tgt))).Sublist (versionsOf m.Sources) :=
          List.Sublist.map _ (List.filter_sublist _)
        exact List.Pairwise.sublist hsub hpw)
      hfresh
      (by intro mg _; simp)]
    simp

/-- The versions named by `Migration.Revert` call events, in order. -/
def revertCallsOf (evs : List Event) : List Int :=
  evs.filterMap fun e =>
    match e with
    | Event.revertCall v => some v
    | _ => none

@[simp] theorem revertCallsOf_nil : revertCallsOf [] = [] := rfl

theorem revertCallsOf_append (l1 l2 : List Event) :
    revertCallsOf (l1 ++ l2) = revertCallsOf l1 ++ revertCallsOf l2 :=
  List.filterMap_append l1 l2 _

theorem revertCallsOf_revertEvents (vs : List Int) :
    revertCallsOf (revertEvents vs) = vs := by
  induction vs with
  | nil => rfl
  | cons v rest ih =>
    rw [revertEvents_cons]
    show revertCallsOf ([Event.revertCall v, Event.remove v, Event.version] ++
      revertEvents rest) = v :: rest
    rw [revertCallsOf_append, ih]
    rfl

theorem revert_success_spec (m : Migrator Sqlite3State Db)
    (w : World Sqlite3State Db) (tgt : Int) (fuel : Nat)
    (hS : m.Store = sqlite3Store) (hv : ValidSources m.Sources)
    (hlk : w.store.locked = false)
    (hsort : List.Chain' (· > ·) w.store.applied)
    (htgt : tgt = RevertTargetInitial ∨ tgt ∈ versionsOf m.Sources)
    (hcov : ∀ v ∈ w.store.applied, tgt < v → v ∈ versionsOf m.Sources)
    (htot : ∀ mg ∈ m.Sources, TotalRevert mg)
    (hfuel : w.store.applied.length ≤ fuel) :
    ∃ out, m.revert w tgt fuel = some out ∧
      out.err = none ∧
      out.n = (w.store.applied.filter fun v => decide (tgt < v)).length ∧
      out.world.store.applied =
        (w.store.applied.filter fun v => decide (v ≤ tgt)) ∧
      (m.HoldLockOnFailure = false → out.world.store.locked = false) ∧
      revertCallsOf out.events =
        (w.store.applied.filter fun v => decide (tgt < v)) := by
  have hchk : m.check = true := (check_iff m).mpr hv
  have hS2 : m.Store = sqlite3StoreFI none := by
    rw [hS, sqlite3Store_eq_FI_none]
  have hpw : List.Pairwise (· < ·) (versionsOf m.Sources) :=
    List.chain'_iff_pairwise.mp hv.1
  have htgt2 : tgt = RevertTargetInitial ∨
      (binarySearchFunc m.Sources tgt).2 = true := by
    rcases htgt with h | h
    · exact Or.inl h
    · right
      obtain ⟨mg, hl, -, -⟩ := lookupVersion_of_mem_sorted m.Sources hpw h
      rw [lookupVersion] at hl
      rcases hb : binarySearchFunc m.Sources tgt with ⟨i, b⟩
      cases b with
      | true => rfl
      | false => rw [hb] at hl; simp at hl
  rw [revert_head none m w tgt fuel hS2 hchk htgt2 hlk]
  cases happ : w.store.applied with
  | nil =>
    rw [(maxRow_eq_none_iff _).mpr rfl]
    exact ⟨_, rfl, rfl, by simp, by simp, by simp, rfl⟩
  | cons a rest =>
    rw [happ] at hsort
    rw [maxRow_sorted rest a hsort]
    have hcov2 : ∀ v ∈ a :: rest, tgt < v → v ∈ versionsOf m.Sources := by
      rw [← happ]; exact hcov
    obtain ⟨out, heq, herr, hn, hap, hlko, hevo⟩ :=
      revertLoop_success none m hS2 tgt hpw htot rest a fuel
        { store := { applied := a :: rest, locked := true }, db := w.db }
        0 [Event.init, Event.lock, Event.version] rfl hsort
        (by rw [happ] at hfuel; simpa using hfuel) hcov2
    refine ⟨out, heq, herr, by rw [hn]; simp, by rw [hap], ?_, ?_⟩
    · intro hh
      rw [hlko, hh]
      simp
    · rw [hevo, revertCallsOf_append, revertCallsOf_append,
        revertCallsOf_revertEvents]
      have h1 : revertCallsOf [Event.init, Event.lock, Event.version] = [] :=
        rfl
      rw [h1]
      have h2 : revertCallsOf
          (if ((a :: rest).filter fun v => decide (v ≤ tgt)) = [] ∧
              m.HoldLockOnFailure = true
           then [] else [Event.release]) = [] := by
        by_cases hc : ((a :: rest).filter fun v => decide (v ≤ tgt)) = [] ∧
            m.HoldLockOnFailure = true
        · rw [if_pos hc]; rfl
        · rw [if_neg hc]; rfl
      rw [h2]
      simp

end RunSpec

section Fixtures

instance decValidSources {Db : Type} (l : List (Migration Db)) :
    Decidable (ValidSources l) :=
  decidable_of_iff (checkAux 0 [] l = true) (checkList_iff l)

theorem runGo_check_fail {σ Db : Type} (m : Migrator σ Db) (w : World σ Db)
    (tgt : Int) (h : m.check = false) :
    m.runGo w tgt =
      { world := w, err := some UpError.invalidSources, events := [] } := by
  simp [Migrator.runGo, h]

/-- A migrator over the reference store, as built in `migrator_test.go`. -/
def mkMigrator (srcs : List (Migration Unit)) (hold : Bool) :
    Migrator Sqlite3State Unit :=
  { Store := sqlite3Store, Sources := srcs, HoldLockOnFailure := hold }

/-- A world whose store has recorded exactly the given versions (most
recent first) and is unlocked. -/
def worldAt (l : List Int) : World Sqlite3State Unit :=
  { store := { applied := l, locked := false }, db := () }

/-- Projection: the applied versions after an invocation on the
reference store. -/
def appliedOut {Db : Type} (o : RunOut Sqlite3State Db) : List Int :=
  o.world.store.applied

/-- Projection: the reverse-action calls of an invocation, in order. -/
def revertCallsOut {σ Db : Type} (o : RunOut σ Db) : List Int :=
  revertCallsOf o.events

end Fixtures

/-- C3: a Source list with strictly increasing positive versions passes
`check()` (first conjunct, an equivalence), and on any invalid list both
`Run` (in both implementations) and `Revert` return the configuration
error with an empty call trace — no `Init`, `Lock`, `Version`, `Insert`
or `Remove` reaches the store, the state is unchanged, and `Run` and
`Revert` accept exactly the same Source lists since both are gated by the
same `check()`. -/
theorem c3_validation_gate {σ Db : Type} (m : Migrator σ Db)
    (w : World σ Db) (tgt tgt2 : Int) (fuel : Nat)
    (hinv : ¬ ValidSources m.Sources) :
    (m.check = true ↔ ValidSources m.Sources) ∧
    m.check = false ∧
    m.run w tgt =
      { world := w, n := 0, err := some UpError.invalidSources,
        events := [] } ∧
    m.runGo w tgt =
      { world := w, err := some UpError.invalidSources, events := [] } ∧
    m.revert w tgt2 fuel =
      some { world := w, n := 0, err := some UpError.invalidSources,
             events := [] } := by
  have hiff := check_iff m
  have hc : m.check = false := by
    cases hchk : m.check with
    | false => rfl
    | true => exact absurd (hiff.mp hchk) hinv
  exact ⟨hiff, hc, run_check_fail m w tgt hc, runGo_check_fail m w tgt hc,
    revert_check_fail m w tgt2 fuel hc⟩

theorem c3_validation_gate_witness :
    (¬ ValidSources [noopMigration 2, noopMigration 1]) ∧
    (mkMigrator [noopMigration 2, noopMigration 1] false).run (worldAt []) 1 =
      { world := worldAt [], n := 0, err := some UpError.invalidSources,
        events := [] } := by
  have h := c3_validation_gate
    (mkMigrator [noopMigration 2, noopMigration 1] false) (worldAt []) 1 0 1
    (by decide)
  exact ⟨by decide, h.2.2.1⟩

/-- C6: for a valid Source list and a non-zero target version absent from
it, `Revert` fails with the missing-target error before any store call:
the call trace is empty and the world unchanged, so zero reversions are
performed. -/
theorem c6_revert_unknown_target {σ Db : Type} (m : Migrator σ Db)
    (w : World σ Db) (tgt : Int) (fuel : Nat)
    (hv : ValidSources m.Sources) (ht0 : tgt ≠ RevertTargetInitial)
    (hnm : tgt ∉ versionsOf m.Sources) :
    m.revert w tgt fuel =
      some { world := w, n := 0, err := some (UpError.missingTarget tgt),
             events := [] } :=
  revert_missing_target m w tgt fuel ((check_iff m).mpr hv) ht0
    (binarySearch_not_found m.Sources hnm)

theorem c6_revert_unknown_target_witness :
    ValidSources [noopMigration 1, noopMigration 2, noopMigration 3] ∧
    (5 : Int) ≠ RevertTargetInitial ∧
    (5 : Int) ∉ versionsOf [noopMigration 1, noopMigration 2, noopMigration 3] ∧
    (mkMigrator [noopMigration 1, noopMigration 2, noopMigration 3]
        false).revert (worldAt [3, 2, 1]) 5 10 =
      some { world := worldAt [3, 2, 1], n := 0,
             err := some (UpError.missingTarget 5), events := [] } :=
  ⟨by decide, by decide, by decide,
    c6_revert_unknown_target _ _ 5 10 (by decide) (by decide) (by decide)⟩

/-- C8: the reference sqlite store's `Remove` runs a bare `DELETE` and
reports success even when the version is not recorded — here version `4`
is absent from the recorded set `{1,2,3}` yet `Remove` returns no error
and leaves the rows unchanged, contradicting the claim (and the repo's
own `remove_nonexistent_version` test, which wants an error). -/
theorem c8_remove_unrecorded_succeeds :
    (4 : Int) ∉ ({ applied := [3, 2, 1], locked := false } :
      Sqlite3State).applied ∧
    sqlite3Store.remove 4 { applied := [3, 2, 1], locked := false } =
      ({ applied := [3, 2, 1], locked := false }, true) := by
  decide

/-- C1: with the latest sentinel `-1`, the `Run` of `src/up/migrator.go`
applies and records nothing (its apply walk tests `Version <= -1`, which
no positive version satisfies) while still reporting success, whereas the
`Run` of `src/unnamed/part_004` applies and records the pending migration
as the claim states: on Sources `{1}` over an empty store, the former
makes no apply call and no insert, the latter applies and records
version 1. -/
theorem c1_latest_sentinel_divergence :
    (mkMigrator [noopMigration 1] false).runGo (worldAt []) (-1) =
      { world := worldAt [], err := none,
        events := [Event.init, Event.lock, Event.version,
          Event.release] } ∧
    (mkMigrator [noopMigration 1] false).run (worldAt []) (-1) =
      { world := worldAt [1], n := 1, err := none,
        events := [Event.init, Event.lock, Event.version,
          Event.applyCall 1, Event.insert 1, Event.release] } := by
  decide

/-- C10 counterexample: the two `Run` implementations are not
observationally equivalent at the latest sentinel `-1`: on Sources `{1}`
over an empty store, `migrator.go` invokes no apply action and no
`Insert`, while `part_004` invokes both. -/
theorem c10_counterexample_latest :
    ((mkMigrator [noopMigration 1] false).runGo (worldAt []) (-1)).events =
      [Event.init, Event.lock, Event.version, Event.release] ∧
    ((mkMigrator [noopMigration 1] false).run (worldAt []) (-1)).events =
      [Event.init, Event.lock, Event.version, Event.applyCall 1,
        Event.insert 1, Event.release] ∧
    ((mkMigrator [noopMigration 1] false).runGo (worldAt []) (-1)).events ≠
      ((mkMigrator [noopMigration 1] false).run (worldAt []) (-1)).events := by
  decide

/-- C10 amended: for every store, source list, state, and target other
than the latest sentinel `-1`, the two `Run` implementations coincide
observationally — same final world (hence same lock state and same store
contents), same error, and the same call trace (hence the same apply
actions and the same `Insert` calls in the same order); `migrator.go`
merely omits the count that `part_004` returns. -/
theorem c10_run_equivalence_except_latest {σ Db : Type}
    (m : Migrator σ Db) (w : World σ Db) (tgt : Int)
    (h : tgt ≠ RunTargetLatest) :
    m.runGo w tgt = dropN (m.run w tgt) :=
  runGo_eq_run m w tgt h

theorem c10_run_equivalence_except_latest_witness :
    (3 : Int) ≠ RunTargetLatest ∧
    (mkMigrator [noopMigration 1, noopMigration 2] false).runGo
        (worldAt []) 3 =
      dropN ((mkMigrator [noopMigration 1, noopMigration 2] false).run
        (worldAt []) 3) :=
  ⟨by decide, c10_run_equivalence_except_latest _ _ 3 (by decide)⟩

/-- C2 counterexample: a `Revert` that succeeds by reverting everything
down to the initial version does NOT release the lock when
`HoldLockOnFailure` is true: on Sources `{1}`, store at version 1,
`Revert(0)` returns success (one reversion, no error) via the mid-loop
initial-version return, which skips the `shouldRelease = true`
restoration — the final state is unlocked-claim-violating: `locked` is
still `true` and no `Release` call appears in the trace. -/
theorem c2_counterexample_revert_initial_holds_lock :
    (mkMigrator [noopMigration 1] true).revert (worldAt [1]) 0 5 =
      some { world := { store := { applied := [], locked := true },
                        db := () },
             n := 1, err := none,
             events := [Event.init, Event.lock, Event.version,
               Event.revertCall 1, Event.remove 1, Event.version] } := by
  decide

/-- C2 amended: over the reference store, for an invocation that acquires
the lock (valid sources, lock initially free, and for `Revert` a valid
target): `Run` leaves the lock held exactly when `HoldLockOnFailure` is
true and it returns an error; `Revert` leaves the lock held exactly when
`HoldLockOnFailure` is true and it either returns an error or succeeded
by reverting everything down to the initial version (at least one
reversion, ending with no applied versions) — in that last success case
the mid-loop return skips the release, contrary to the original claim's
final sentence. -/
theorem c2_lock_policy {Db : Type} (m : Migrator Sqlite3State Db)
    (w : World Sqlite3State Db) (tgt tgt2 : Int) (fuel : Nat)
    (hS : m.Store = sqlite3Store) (hchk : m.check = true)
    (hlk : w.store.locked = false)
    (htgt2 : tgt2 = RevertTargetInitial ∨
      (binarySearchFunc m.Sources tgt2).2 = true) :
    ((m.run w tgt).world.store.locked = true ↔
      m.HoldLockOnFailure = true ∧ (m.run w tgt).err ≠ none) ∧
    (∀ out, m.revert w tgt2 fuel = some out →
      (out.world.store.locked = true ↔
        m.HoldLockOnFailure = true ∧
          (out.err ≠ none ∨
            (out.world.store.applied = [] ∧ 1 ≤ out.n)))) := by
  have hS2 : m.Store = sqlite3StoreFI none := by
    rw [hS, sqlite3Store_eq_FI_none]
  constructor
  · rw [run_to_runFrom none m w tgt hS2 hchk hlk]
    by_cases hemp : (m.Sources.filter fun mg =>
        decide ((maxRow w.store.applied).getD 0 < mg.Version ∧
          (tgt = RunTargetLatest ∨ mg.Version ≤ tgt))) = []
    · rw [runFrom_empty m _ _ _ _ hemp, hS2, finishRel_FI_true]
      simp
    · rw [runFrom_walk m _ _ _ _ hemp]
      exact runWalk_locked none m hS2 _
        { store := { applied := w.store.applied, locked := true },
          db := w.db }
        0 [Event.init, Event.lock, Event.version] rfl
  · intro out hout
    rw [revert_head none m w tgt2 fuel hS2 hchk htgt2 hlk] at hout
    cases hmr : maxRow w.store.applied with
    | none =>
      rw [hmr] at hout
      simp only [Option.some.injEq] at hout
      subst hout
      simp
    | some v =>
      rw [hmr] at hout
      have hres := revertLoop_locked none m hS2 tgt2 fuel v
        { store := { applied := w.store.applied, locked := true },
          db := w.db }
        0 [Event.init, Event.lock, Event.version] out rfl hmr hout
      constructor
      · intro hlkd
        obtain ⟨hh, hcase⟩ := hres.1.mp hlkd
        refine ⟨hh, ?_⟩
        rcases hcase with herr | happ
        · exact Or.inl herr
        · cases herr2 : out.err with
          | some e => exact Or.inl (by simp [herr2])
          | none =>
            right
            exact ⟨happ, hres.2 ⟨herr2, happ⟩⟩
      · rintro ⟨hh, herr | ⟨happ, -⟩⟩
        · exact hres.1.mpr ⟨hh, Or.inl herr⟩
        · exact hres.1.mpr ⟨hh, Or.inr happ⟩

theorem c2_lock_policy_witness :
    (mkMigrator [noopMigration 1, errorMigration 2] true).check = true ∧
    (((mkMigrator [noopMigration 1, errorMigration 2] true).run
        (worldAt []) 2).world.store.locked = true ↔
      (mkMigrator [noopMigration 1, errorMigration 2] true).HoldLockOnFailure
          = true ∧
        ((mkMigrator [noopMigration 1, errorMigration 2] true).run
          (worldAt []) 2).err ≠ none) :=
  ⟨by decide,
    (c2_lock_policy (mkMigrator [noopMigration 1, errorMigration 2] true)
      (worldAt []) 2 0 1 rfl (by decide) rfl (Or.inl rfl)).1⟩

/-- C4: for a valid Source list, a lock-free reference store at current
version `c` (the maximum recorded version, or 0 when empty) and a finite
non-negative target — including targets matching no source version and
targets below `c` — a fully successful `Run` applies exactly the source
migrations with `c < version ≤ tgt`, in ascending order (the event trace
lists their apply calls and inserts in source order, which is ascending),
records each one, reports their count, and releases the lock; when the
selection is empty this degenerates to success with zero applications
after releasing the lock. -/
theorem c4_run_applies_selection {Db : Type} (m : Migrator Sqlite3State Db)
    (w : World Sqlite3State Db) (tgt : Int) (sel : List (Migration Db))
    (hS : m.Store = sqlite3Store) (hv : ValidSources m.Sources)
    (hlk : w.store.locked = false) (htgt : 0 ≤ tgt)
    (hsel : sel = m.Sources.filter fun mg =>
      decide ((maxRow w.store.applied).getD 0 < mg.Version ∧
        mg.Version ≤ tgt))
    (htot : ∀ mg ∈ sel, TotalRun mg) :
    (m.run w tgt).err = none ∧
    (m.run w tgt).n = sel.length ∧
    (m.run w tgt).world.store.applied =
      (versionsOf sel).reverse ++ w.store.applied ∧
    (m.run w tgt).world.store.locked = false ∧
    (m.run w tgt).events =
      [Event.init, Event.lock, Event.version] ++ applyEvents sel ++
        [Event.release] := by
  subst hsel
  rw [run_total_spec m w tgt hS hv hlk htgt
    (by
      intro mg hm h1 h2
      exact htot mg (List.mem_filter.mpr ⟨hm, by simp [h1, h2]⟩))]
  exact ⟨rfl, rfl, rfl, rfl, rfl⟩

theorem c4_run_applies_selection_witness :
    ValidSources [noopMigration 1, noopMigration 2, noopMigration 3] ∧
    ((mkMigrator [noopMigration 1, noopMigration 2, noopMigration 3]
        false).run (worldAt [1]) 2).n = 1 ∧
    ((mkMigrator [noopMigration 1, noopMigration 2, noopMigration 3]
        false).run (worldAt [1]) 2).world.store.applied = [2, 1] := by
  have h := c4_run_applies_selection
    (mkMigrator [noopMigration 1, noopMigration 2, noopMigration 3] false)
    (worldAt [1]) 2 [noopMigration 2] rfl (by decide) rfl (by decide)
    rfl
    (by intro mg hm d; fin_cases hm; rfl)
  exact ⟨by decide, by rw [h.2.1]; decide, by rw [h.2.2.1]; decide⟩

/-- C5: for a valid Source list, a lock-free reference store whose
recorded versions are strictly descending, a target that is the initial
sentinel 0 or a source version, reverse actions that all succeed, every
applied version above the target backed by a source migration, and
enough fuel, `Revert` succeeds, reverts exactly the applied versions
strictly above the target — the reverse-action calls occur in exactly
that (descending) order — reports their count, and leaves recorded
exactly the versions at or below the target; a target at or above the
current version, or an empty store, is the zero-reversion instance. -/
theorem c5_revert_descending {Db : Type} (m : Migrator Sqlite3State Db)
    (w : World Sqlite3State Db) (tgt : Int) (fuel : Nat)
    (hS : m.Store = sqlite3Store) (hv : ValidSources m.Sources)
    (hlk : w.store.locked = false)
    (hsort : List.Chain' (· > ·) w.store.applied)
    (htgt : tgt = RevertTargetInitial ∨ tgt ∈ versionsOf m.Sources)
    (hcov : ∀ v ∈ w.store.applied, tgt < v → v ∈ versionsOf m.Sources)
    (htot : ∀ mg ∈ m.Sources, TotalRevert mg)
    (hfuel : w.store.applied.length ≤ fuel) :
    ∃ out, m.revert w tgt fuel = some out ∧
      out.err = none ∧
      out.n = (w.store.applied.filter fun v => decide (tgt < v)).length ∧
      out.world.store.applied =
        (w.store.applied.filter fun v => decide (v ≤ tgt)) ∧
      (m.HoldLockOnFailure = false → out.world.store.locked = false) ∧
      revertCallsOf out.events =
        (w.store.applied.filter fun v => decide (tgt < v)) :=
  revert_success_spec m w tgt fuel hS hv hlk hsort htgt hcov htot hfuel

theorem c5_revert_descending_witness :
    ValidSources [noopMigration 1, noopMigration 2, noopMigration 3] ∧
    ((mkMigrator [noopMigration 1, noopMigration 2, noopMigration 3]
        false).revert (worldAt [3, 2, 1]) 1 5).map RunOut.n = some 2 ∧
    ((mkMigrator [noopMigration 1, noopMigration 2, noopMigration 3]
        false).revert (worldAt [3, 2, 1]) 1 5).map appliedOut = some [1] ∧
    ((mkMigrator [noopMigration 1, noopMigration 2, noopMigration 3]
        false).revert (worldAt [3, 2, 1]) 1 5).map revertCallsOut =
      some [3, 2] := by
  obtain ⟨out, heq, herr, hn, hap, hlko, hcalls⟩ := c5_revert_descending
    (mkMigrator [noopMigration 1, noopMigration 2, noopMigration 3] false)
    (worldAt [3, 2, 1]) 1 5 rfl (by decide) rfl
    (by simp [worldAt, List.chain'_cons])
    (Or.inr (by decide)) (by intro v hv hgt; fin_cases hv <;> decide)
    (by intro mg hm d; fin_cases hm <;> rfl) (by decide)
  refine ⟨by decide, ?_, ?_, ?_⟩
  · rw [heq, Option.map_some', hn]
    decide
  · rw [heq, Option.map_some']
    show some out.world.store.applied = some [1]
    rw [hap]
    decide
  · rw [heq, Option.map_some']
    show some (revertCallsOf out.events) = some [3, 2]
    rw [hcalls]
    decide

theorem run_reaches_walk {Db : Type} (bad : Option Int)
    (m : Migrator Sqlite3State Db) (w : World Sqlite3State Db) (tgt : Int)
    (hS : m.Store = sqlite3StoreFI bad) (hv : ValidSources m.Sources)
    (hlk : w.store.locked = false) (htgt : 0 ≤ tgt)
    (hne : (m.Sources.filter fun mg =>
      decide ((maxRow w.store.applied).getD 0 < mg.Version ∧
        mg.Version ≤ tgt)) ≠ []) :
    m.run w tgt =
      m.runWalk
        { store := { applied := w.store.applied, locked := true },
          db := w.db }
        0 [Event.init, Event.lock, Event.version]
        (m.Sources.filter fun mg =>
          decide ((maxRow w.store.applied).getD 0 < mg.Version ∧
            mg.Version ≤ tgt)) := by
  have hchk : m.check = true := (check_iff m).mpr hv
  have hfeq : (m.Sources.filter fun mg =>
      decide ((maxRow w.store.applied).getD 0 < mg.Version ∧
        (tgt = RunTargetLatest ∨ mg.Version ≤ tgt))) =
      (m.Sources.filter fun mg =>
        decide ((maxRow w.store.applied).getD 0 < mg.Version ∧
          mg.Version ≤ tgt)) := by
    refine List.filter_congr ?_
    intro mg _
    simp only [decide_eq_decide]
    constructor
    · rintro ⟨h1, h2 | h2⟩
      · exact absurd h2 (by rw [RunTargetLatest]; omega)
      · exact ⟨h1, h2⟩
    · rintro ⟨h1, h2⟩
      exact ⟨h1, Or.inr h2⟩
  rw [run_to_runFrom bad m w tgt hS hchk hlk,
    runFrom_walk m _ _ _ _ (fun hc => hne (hfeq.symm.trans hc)), hfeq]

/-- C7: during a Run walk over the reference store (with, for the
record-failure case, the test harness's injected insert fault), if the
apply action of the k-th selected migration always fails (first part) or
its `Insert` always fails (second part), then every selected migration
before it has been applied and recorded — the final store still holds
their versions — no later selected migration's action or record call
appears in the trace (the trace ends at the failing step, plus at most
the deferred release), and Run returns the count of migrations completed
before the failure with an error naming the failing version. -/
theorem c7_run_stops_at_first_failure {Db : Type} :
    (∀ (m : Migrator Sqlite3State Db) (w : World Sqlite3State Db)
       (tgt : Int) (pre post : List (Migration Db)) (mgk : Migration Db),
      m.Store = sqlite3Store → ValidSources m.Sources →
      w.store.locked = false → 0 ≤ tgt →
      (m.Sources.filter fun mg =>
        decide ((maxRow w.store.applied).getD 0 < mg.Version ∧
          mg.Version ≤ tgt)) = pre ++ mgk :: post →
      (∀ mg ∈ pre, TotalRun mg) → (∀ d, mgk.run d = none) →
      (m.run w tgt).err = some (UpError.applyFailed mgk.Version) ∧
      (m.run w tgt).n = pre.length ∧
      (m.run w tgt).world.store.applied =
        (versionsOf pre).reverse ++ w.store.applied ∧
      (m.run w tgt).events =
        [Event.init, Event.lock, Event.version] ++ applyEvents pre ++
          [Event.applyCall mgk.Version] ++
          if m.HoldLockOnFailure then [] else [Event.release]) ∧
    (∀ (m : Migrator Sqlite3State Db) (w : World Sqlite3State Db)
       (tgt : Int) (pre post : List (Migration Db)) (mgk : Migration Db),
      m.Store = sqlite3StoreFI (some mgk.Version) → ValidSources m.Sources →
      w.store.locked = false → 0 ≤ tgt →
      (m.Sources.filter fun mg =>
        decide ((maxRow w.store.applied).getD 0 < mg.Version ∧
          mg.Version ≤ tgt)) = pre ++ mgk :: post →
      (∀ mg ∈ pre, TotalRun mg) → TotalRun mgk →
      (m.run w tgt).err = some (UpError.insertFailed mgk.Version) ∧
      (m.run w tgt).n = pre.length ∧
      (m.run w tgt).world.store.applied =
        (versionsOf pre).reverse ++ w.store.applied ∧
      (m.run w tgt).events =
        [Event.init, Event.lock, Event.version] ++ applyEvents pre ++
          [Event.applyCall mgk.Version, Event.insert mgk.Version] ++
          if m.HoldLockOnFailure then [] else [Event.release]) := by
  have walkSetup : ∀ (bad : Option Int) (m : Migrator Sqlite3State Db)
      (w : World Sqlite3State Db) (tgt : Int)
      (pre post : List (Migration Db)) (mgk : Migration Db),
      ValidSources m.Sources →
      (m.Sources.filter fun mg =>
        decide ((maxRow w.store.applied).getD 0 < mg.Version ∧
          mg.Version ≤ tgt)) = pre ++ mgk :: post →
      List.Pairwise (· < ·) (versionsOf (pre ++ mgk :: post)) ∧
      (∀ mg ∈ pre, ∀ a ∈ w.store.applied, a < mg.Version) := by
    intro bad m w tgt pre post mgk hv hsel
    have hpw : List.Pairwise (· < ·) (versionsOf m.Sources) :=
      List.chain'_iff_pairwise.mp hv.1
    have hpwSel : List.Pairwise (· < ·) (versionsOf (pre ++ mgk :: post)) := by
      rw [← hsel]
      exact List.Pairwise.sublist
        (List.Sublist.map _ (List.filter_sublist _)) hpw
    refine ⟨hpwSel, ?_⟩
    intro mg hmg a ha
    have hmem : mg ∈ (m.Sources.filter fun mg =>
        decide ((maxRow w.store.applied).getD 0 < mg.Version ∧
          mg.Version ≤ tgt)) := by
      rw [hsel]
      exact List.mem_append_left _ hmg
    rw [List.mem_filter] at hmem
    have hcond := hmem.2
    simp only [decide_eq_true_eq] at hcond
    cases hmr : maxRow w.store.applied with
    | none =>
      rw [(maxRow_eq_none_iff _).mp hmr] at ha
      simp at ha
    | some mx =>
      have h1 : a ≤ mx := mem_le_maxRow _ ha mx hmr
      have h2 := hcond.1
      rw [hmr] at h2
      simp only [Option.getD_some] at h2
      omega
  constructor
  · intro m w tgt pre post mgk hS hv hlk htgt hsel hpre hkfail
    have hS2 : m.Store = sqlite3StoreFI none := by
      rw [hS, sqlite3Store_eq_FI_none]
    obtain ⟨hpwSel, hfresh⟩ := walkSetup none m w tgt pre post mgk hv hsel
    rw [run_reaches_walk none m w tgt hS2 hv hlk htgt
      (by rw [hsel]; simp), hsel]
    rw [runWalk_fail_apply none m hS2 mgk post hkfail pre
      { store := { applied := w.store.applied, locked := true }, db := w.db }
      0 [Event.init, Event.lock, Event.version] hpre
      (List.Pairwise.sublist
        (List.Sublist.map _ (List.sublist_append_left pre (mgk :: post)))
        hpwSel)
      hfresh (by intro mg _; simp)]
    exact ⟨rfl, Nat.zero_add _, rfl, rfl⟩
  · intro m w tgt pre post mgk hS hv hlk htgt hsel hpre hktot
    obtain ⟨hpwSel, hfresh⟩ := walkSetup (some mgk.Version) m w tgt pre post
      mgk hv hsel
    have hne : ∀ mg ∈ pre, mg.Version ≠ mgk.Version := by
      intro mg hmg
      have := hpwSel
      rw [versionsOf] at this
      rw [List.map_append, List.map_cons] at this
      rw [List.pairwise_append] at this
      have hcross := this.2.2 mg.Version
        (List.mem_map_of_mem Migration.Version hmg) mgk.Version (by simp)
      omega
    rw [run_reaches_walk (some mgk.Version) m w tgt hS hv hlk htgt
      (by rw [hsel]; simp), hsel]
    rw [runWalk_fail_insert m mgk hS post hktot pre
      { store := { applied := w.store.applied, locked := true }, db := w.db }
      0 [Event.init, Event.lock, Event.version] hpre
      (List.Pairwise.sublist
        (List.Sublist.map _ (List.sublist_append_left pre (mgk :: post)))
        hpwSel)
      hfresh hne]
    exact ⟨rfl, Nat.zero_add _, rfl, rfl⟩

theorem c7_run_stops_at_first_failure_witness :
    ((mkMigrator [noopMigration 1, errorMigration 2, noopMigration 3]
        false).run (worldAt []) 3).err = some (UpError.applyFailed 2) ∧
    ((mkMigrator [noopMigration 1, errorMigration 2, noopMigration 3]
        false).run (worldAt []) 3).n = 1 ∧
    ((mkMigrator [noopMigration 1, errorMigration 2, noopMigration 3]
        false).run (worldAt []) 3).world.store.applied = [1] := by
  have h := (@c7_run_stops_at_first_failure Unit).1
    (mkMigrator [noopMigration 1, errorMigration 2, noopMigration 3] false)
    (worldAt []) 3 [noopMigration 1] [noopMigration 3] (errorMigration 2)
    rfl (by decide) rfl (by decide) rfl
    (by intro mg hm d; fin_cases hm; rfl)
    (by intro d; rfl)
  exact ⟨h.1, h.2.1, h.2.2.1⟩

section RoundTrip

variable {Db : Type}

theorem maxRow_mem (l : List Int) (m : Int) (hm : maxRow l = some m) :
    m ∈ l := by
  induction l generalizing m with
  | nil => simp [maxRow] at hm
  | cons v vs ih =>
    rw [maxRow] at hm
    cases hmr : maxRow vs with
    | none =>
      rw [hmr] at hm
      have : some v = some m := hm
      simp only [Option.some.injEq] at this
      simp [this]
    | some mw =>
      rw [hmr] at hm
      have : some (max v mw) = some m := hm
      simp only [Option.some.injEq] at this
      rcases max_cases v mw with ⟨hmax, -⟩ | ⟨hmax, -⟩
      · rw [hmax] at this
        simp [this]
      · rw [hmax] at this
        exact List.mem_cons_of_mem _ (this ▸ ih mw hmr)

theorem filter_split_sorted (l : List Int)
    (hp : List.Pairwise (· < ·) l) (t c : Int) (htc : t ≤ c) :
    (l.filter fun v => decide (v ≤ c)) =
      (l.filter fun v => decide (v ≤ t)) ++
        (l.filter fun v => decide (t < v ∧ v ≤ c)) := by
  induction l with
  | nil => rfl
  | cons a l ih =>
    rw [List.pairwise_cons] at hp
    by_cases hat : a ≤ t
    · rw [List.filter_cons, if_pos (by simpa using le_trans hat htc),
        List.filter_cons, if_pos (by simpa using hat),
        List.filter_cons, if_neg (by simp; omega)]
      rw [ih hp.2, List.cons_append]
    · have hlnil : (l.filter fun v => decide (v ≤ t)) = [] := by
        rw [List.filter_eq_nil_iff]
        intro b hb
        have := hp.1 b hb
        simp
        omega
      have hhd : (l.filter fun v => decide (v ≤ t)) ++
          (l.filter fun v => decide (t < v ∧ v ≤ c)) =
          l.filter fun v => decide (t < v ∧ v ≤ c) := by
        rw [hlnil, List.nil_append]
      have htl : (l.filter fun v => decide (v ≤ c)) =
          l.filter fun v => decide (t < v ∧ v ≤ c) := by
        refine List.filter_congr ?_
        intro b hb
        have := hp.1 b hb
        simp only [decide_eq_decide]
        omega
      by_cases hac : a ≤ c
      · rw [List.filter_cons, if_pos (by simpa using hac),
          List.filter_cons, if_neg (by simpa using hat),
          List.filter_cons, if_pos (by simp; omega)]
        rw [hlnil, List.nil_append, htl]
      · rw [List.filter_cons, if_neg (by simpa using hac),
          List.filter_cons, if_neg (by simpa using hat),
          List.filter_cons, if_neg (by simp; omega)]
        rw [hhd, htl]

/-- C9: on the reference store with the default configuration, for a
valid Source list whose applied-version set is exactly the source
versions at most `c` (the current version, itself a source version), and
a target `t ≤ c` that is 0 or a source version, with all actions total:
`Revert(t)` succeeds and an immediate `Run(c)` succeeds and restores
exactly the original applied-version set. -/
theorem c9_revert_run_round_trip (m : Migrator Sqlite3State Db)
    (w : World Sqlite3State Db) (tgt c : Int) (fuel : Nat)
    (hS : m.Store = sqlite3Store) (hv : ValidSources m.Sources)
    (hhold : m.HoldLockOnFailure = false)
    (hc : c ∈ versionsOf m.Sources)
    (happ : w.store.applied =
      ((versionsOf m.Sources).filter fun v => decide (v ≤ c)).reverse)
    (hlk : w.store.locked = false)
    (htgt : tgt = RevertTargetInitial ∨ tgt ∈ versionsOf m.Sources)
    (htle : tgt ≤ c)
    (htotR : ∀ mg ∈ m.Sources, TotalRevert mg)
    (htotA : ∀ mg ∈ m.Sources, TotalRun mg)
    (hfuel : w.store.applied.length ≤ fuel) :
    ∃ out, m.revert w tgt fuel = some out ∧ out.err = none ∧
      (m.run out.world c).err = none ∧
      (m.run out.world c).world.store.applied = w.store.applied := by
  have hpw : List.Pairwise (· < ·) (versionsOf m.Sources) :=
    List.chain'_iff_pairwise.mp hv.1
  have hsort : List.Chain' (· > ·) w.store.applied := by
    rw [happ, List.chain'_iff_pairwise, List.pairwise_reverse]
    exact List.Pairwise.sublist (List.filter_sublist _) hpw
  have hcov : ∀ v ∈ w.store.applied, tgt < v → v ∈ versionsOf m.Sources := by
    rw [happ]
    intro v hv2 _
    rw [List.mem_reverse, List.mem_filter] at hv2
    exact hv2.1
  obtain ⟨out, heq, herr, hn, hap, hlkF, hcalls⟩ :=
    revert_success_spec m w tgt fuel hS hv hlk hsort htgt hcov htotR hfuel
  have h0tgt : 0 ≤ tgt := by
    rcases htgt with h | h
    · rw [h]; rfl
    · obtain ⟨mg, hmg, hveq⟩ := List.mem_map.mp h
      have := hv.2 mg hmg
      omega
  have h0c : 0 ≤ c := by
    obtain ⟨mg, hmg, hveq⟩ := List.mem_map.mp hc
    have := hv.2 mg hmg
    omega
  have hap1 : out.world.store.applied =
      ((versionsOf m.Sources).filter fun v => decide (v ≤ tgt)).reverse := by
    rw [hap, happ, List.filter_reverse, List.filter_filter]
    congr 1
    refine List.filter_congr ?_
    intro v _
    by_cases hvt : v ≤ tgt
    · have hvc : v ≤ c := by omega
      simp [hvt, hvc]
    · simp [hvt]
  have hc1le : ((maxRow out.world.store.applied).getD 0) ≤ tgt := by
    cases hm1 : maxRow out.world.store.applied with
    | none => simpa using h0tgt
    | some mx =>
      have hmem := maxRow_mem _ mx hm1
      rw [hap1, List.mem_reverse, List.mem_filter] at hmem
      have := hmem.2
      simp only [decide_eq_true_eq] at this
      simpa using this
  have hrun := run_total_spec m out.world c hS hv (hlkF hhold) h0c
    (fun mg hm _ _ => htotA mg hm)
  refine ⟨out, heq, herr, ?_, ?_⟩
  · rw [hrun]
  · rw [hrun]
    show (versionsOf (m.Sources.filter fun mg =>
        decide ((maxRow out.world.store.applied).getD 0 < mg.Version ∧
          mg.Version ≤ c))).reverse ++ out.world.store.applied =
      w.store.applied
    rw [versionsOf_filter m.Sources
      (fun v => decide ((maxRow out.world.store.applied).getD 0 < v ∧ v ≤ c))]
    generalize hc1def : (maxRow out.world.store.applied).getD 0 = c1 at hc1le ⊢
    rw [hap1, happ, ← List.reverse_append]
    congr 1
    rw [filter_split_sorted (versionsOf m.Sources) hpw tgt c htle]
    congr 1
    refine List.filter_congr ?_
    intro v hvmem
    simp only [decide_eq_decide]
    constructor
    · rintro ⟨h1, h2⟩
      refine ⟨?_, h2⟩
      by_contra hle
      push_neg at hle
      have hin : v ∈ out.world.store.applied := by
        rw [hap1, List.mem_reverse, List.mem_filter]
        exact ⟨hvmem, by simpa using hle⟩
      cases hm1 : maxRow out.world.store.applied with
      | none =>
        rw [(maxRow_eq_none_iff _).mp hm1] at hin
        simp at hin
      | some mx =>
        have hvle := mem_le_maxRow _ hin mx hm1
        rw [hm1] at hc1def
        simp only [Option.getD_some] at hc1def
        omega
    · rintro ⟨h1, h2⟩
      exact ⟨by omega, h2⟩

end RoundTrip

/-- Revert to `tgt`, then run back to `c`: the applied versions at the
end, when the revert terminated. -/
def roundTrip {Db : Type} (m : Migrator Sqlite3State Db)
    (w : World Sqlite3State Db) (tgt c : Int) (fuel : Nat) :
    Option (List Int) :=
  (m.revert w tgt fuel).map fun out => (m.run out.world c).world.store.applied

theorem c9_revert_run_round_trip_witness :
    (worldAt [3, 2, 1]).store.applied =
      ((versionsOf [noopMigration 1, noopMigration 2, noopMigration 3]).filter
        fun v => decide (v ≤ 3)).reverse ∧
    roundTrip (mkMigrator [noopMigration 1, noopMigration 2, noopMigration 3]
      false) (worldAt [3, 2, 1]) 1 3 5 = some [3, 2, 1] := by
  obtain ⟨out, heq, herr, hrerr, hrap⟩ := c9_revert_run_round_trip
    (mkMigrator [noopMigration 1, noopMigration 2, noopMigration 3] false)
    (worldAt [3, 2, 1]) 1 3 5 rfl (by decide) rfl (by decide) (by decide)
    rfl (Or.inr (by decide)) (by decide)
    (by intro mg hm d; fin_cases hm <;> rfl)
    (by intro mg hm d; fin_cases hm <;> rfl) (by decide)
  refine ⟨by decide, ?_⟩
  rw [roundTrip, heq, Option.map_some', hrap]
  rfl
